import Mathlib

/-!
Verification of the protocol / agent-orchestration core of the `freecad-ai`
plugin against its natural-language specification.

The Python sources are shallowly embedded as Lean definitions:

* `freecad_ai/core/conversation.py` — the provider-neutral message store with
  backward truncation (`Conversation.get_messages_for_api`) and the two
  dialect converters (`_to_openai_format`, `_to_anthropic_format`).
* `freecad_ai/tools/registry.py` — `ToolRegistry` with `register`/`get`/
  `execute`.
* `freecad_ai/mcp/protocol.py`, `mcp/server.py`, `mcp/transport.py`,
  `mcp/manager.py` — the JSON-RPC message constructors, the server method
  table, the client transport's pending-request bookkeeping, and the tool
  namespacing of the manager.
* `freecad_ai/llm/client.py` — streaming tool-call reconstruction for the
  OpenAI-style dialect (`_stream_openai_tools`).
* `freecad_ai/ui/chat_widget.py` — the agentic tool loop (`_LLMWorker._tool_loop`).

Python dictionaries are modelled as insertion-ordered association lists,
JSON values as the inductive `Json`, and the standard library functions
`json.loads` / `json.dumps` / `str` as explicit function parameters
(`jsonLoads`, `jsonDumps`, `pyRepr`), since their internals are outside the
code under verification.
-/

/-- JSON value, modelling the Python `dict`/`list`/`str`/number/`bool`/`None`
universe that flows through the embedded code.  Numbers are modelled as
integers; no verified property depends on numeric values. -/
inductive Json where
  | null
  | bool (b : Bool)
  | num (n : Int)
  | str (s : String)
  | arr (elems : List Json)
  | obj (fields : List (String × Json))
deriving Repr

/-- Lookup of a key in a JSON object (Python `d.get(k)`); `none` for a
missing key or a non-object. -/
def Json.get : Json → String → Option Json
  | .obj fields, k => fields.lookup k
  | _, _ => none

/-- Python `d.get(k, default)` for string-valued fields. -/
def Json.getStrD (j : Json) (k : String) (d : String) : String :=
  match j.get k with
  | some (.str s) => s
  | _ => d

/-- Fields of a JSON object (empty for non-objects). -/
def Json.asObj : Json → List (String × Json)
  | .obj fields => fields
  | _ => []

/- ──────────────────────────────────────────────────────────────────────
   Message store  (src/freecad_ai/core/conversation.py)
   ────────────────────────────────────────────────────────────────────── -/

/-- Internal message role.  `conversation.py` stores roles as the strings
`"user"`, `"assistant"`, `"tool_result"`; system messages are stored as
`user` messages with a `"[System] "` marker (lines 57-64), so exactly these
three roles occur. -/
inductive Role where
  | user
  | assistant
  | tool_result
deriving DecidableEq, Repr

/-- Rendering of a `Role` back to the string stored in the Python dict. -/
def Role.toStr : Role → String
  | .user => "user"
  | .assistant => "assistant"
  | .tool_result => "tool_result"

/-- One entry of an assistant message's `tool_calls` list:
`{"id": ..., "name": ..., "arguments": ...}` with `arguments` a parsed JSON
value (conversation.py lines 139-149 read exactly these keys). -/
structure ToolCallRec where
  id : String
  name : String
  arguments : Json
deriving Repr

/-- Internal (provider-neutral) message dict of `conversation.py`:
`role`, `content` (always present for messages built by the `add_*`
methods), `tool_call_id` (meaningful on `tool_result` messages) and
`tool_calls` (meaningful on assistant messages; absent key modelled as
`[]`). -/
structure Message where
  role : Role
  content : String := ""
  toolCallId : String := ""
  toolCalls : List ToolCallRec := []
deriving Repr

/-- The `Conversation` dataclass (conversation.py lines 23-30). -/
structure Conversation where
  messages : List Message := []
  conversationId : String := ""
  createdAt : Nat := 0
  model : String := ""
deriving Repr

/-- The `api_style` argument of `get_messages_for_api` ("openai" or
"anthropic"; any other string falls into the openai branch, so the two-way
split is exact). -/
inductive ApiStyle where
  | openai
  | anthropic
deriving DecidableEq, Repr

/-- Python test `msg["role"] == "tool_result"`. -/
def isToolResult (m : Message) : Bool := m.role == .tool_result

/-- Group collection step of `get_messages_for_api` (conversation.py lines
89-99), seen from the reversed (newest-first) message list: for a head
message `m` with role `tool_result`, collect all consecutive preceding
`tool_result` messages (`takeWhile` on the reversed tail), then the one
assistant message just before them when present.  Returns the collected
group in newest-first order together with the remaining (older) reversed
messages, so that `m :: rest = (groupAt m rest).1 ++ (groupAt m rest).2`. -/
def groupAt (m : Message) (rest : List Message) : List Message × List Message :=
  match rest.dropWhile isToolResult with
  | a :: t =>
    if a.role == .assistant then (m :: (rest.takeWhile isToolResult ++ [a]), t)
    else (m :: rest.takeWhile isToolResult, a :: t)
  | [] => (m :: rest.takeWhile isToolResult, [])

theorem groupAt_append (m : Message) (rest : List Message) :
    (groupAt m rest).1 ++ (groupAt m rest).2 = m :: rest := by
  have hsplit := List.takeWhile_append_dropWhile isToolResult rest
  unfold groupAt
  cases h : rest.dropWhile isToolResult with
  | nil =>
    rw [h] at hsplit
    simp only [List.append_nil] at hsplit
    simp [hsplit]
  | cons a t =>
    rw [h] at hsplit
    by_cases ha : a.role == .assistant
    · simp only [ha, if_pos]
      simp only [List.cons_append, List.append_assoc, List.singleton_append,
        List.nil_append]
      rw [hsplit]
    · simp only [ha, if_neg, Bool.false_eq_true, not_false_iff]
      simp only [List.cons_append]
      rw [hsplit]

theorem groupAt_snd_length (m : Message) (rest : List Message) :
    (groupAt m rest).2.length ≤ rest.length := by
  have h := congrArg List.length (groupAt_append m rest)
  simp only [List.length_append, List.length_cons] at h
  have : (groupAt m rest).1.length ≥ 1 := by
    unfold groupAt
    cases hr : rest.dropWhile isToolResult with
    | nil => simp
    | cons a t => by_cases ha : a.role == .assistant <;> simp [ha]
  omega

/-- Backward accumulation loop of `get_messages_for_api` (conversation.py
lines 79-113), acting on the reversed (newest-first) message list.
`acc` is the `result` list built so far (in original order), `total` the
running character total.  A `tool_result` head first collects its whole
group (`groupAt`) and admits or rejects it atomically; any admission is
skipped only when the budget would be exceeded *and* the result is already
non-empty (so the newest message or group is always admitted). -/
def collectBack (maxChars : Nat) : List Message → Nat → List Message → List Message
  | [], _, acc => acc
  | m :: rest, total, acc =>
    if m.role == .tool_result then
      if total + (((groupAt m rest).1.reverse).map (fun x => x.content.length)).sum > maxChars
          ∧ acc.isEmpty = false then acc
      else collectBack maxChars (groupAt m rest).2
        (total + (((groupAt m rest).1.reverse).map (fun x => x.content.length)).sum)
        ((groupAt m rest).1.reverse ++ acc)
    else
      if total + m.content.length > maxChars ∧ acc.isEmpty = false then acc
      else collectBack maxChars rest (total + m.content.length) (m :: acc)
termination_by l => l.length
decreasing_by
  · simp only [List.length_cons]
    exact Nat.lt_succ_of_le (groupAt_snd_length m rest)
  · simp

/-- Post-pass of `get_messages_for_api` (conversation.py lines 116-117):
`while result and result[0]["role"] not in ("user",): result.pop(0)`. -/
def dropLeadingNonUser (l : List Message) : List Message :=
  l.dropWhile (fun m => !(m.role == .user))

/-- Conversion of one internal message to the OpenAI wire shape
(`_to_openai_format`, conversation.py lines 125-154).  `jsonDumps` models
`json.dumps` applied to the stored tool-call arguments. -/
def toOpenaiMsg (jsonDumps : Json → String) (m : Message) : Json :=
  if m.role == .tool_result then
    .obj [("role", .str "tool"),
          ("tool_call_id", .str m.toolCallId),
          ("content", .str m.content)]
  else if m.role == .assistant ∧ m.toolCalls.isEmpty = false then
    .obj [("role", .str "assistant"),
          ("content", if m.content = "" then .null else .str m.content),
          ("tool_calls", .arr (m.toolCalls.map (fun tc =>
            .obj [("id", .str tc.id),
                  ("type", .str "function"),
                  ("function", .obj [("name", .str tc.name),
                                     ("arguments", .str (jsonDumps tc.arguments))])])))]
  else
    .obj [("role", .str m.role.toStr), ("content", .str m.content)]

/-- Conversion of one internal message to the Anthropic wire shape
(`_to_anthropic_format`, conversation.py lines 156-185). -/
def toAnthropicMsg (m : Message) : Json :=
  if m.role == .tool_result then
    .obj [("role", .str "user"),
          ("content", .arr [.obj [("type", .str "tool_result"),
                                  ("tool_use_id", .str m.toolCallId),
                                  ("content", .str m.content)]])]
  else if m.role == .assistant ∧ m.toolCalls.isEmpty = false then
    .obj [("role", .str "assistant"),
          ("content", .arr
            ((if m.content = "" then [] else [.obj [("type", .str "text"),
                                                    ("text", .str m.content)]]) ++
             m.toolCalls.map (fun tc =>
               .obj [("type", .str "tool_use"),
                     ("id", .str tc.id),
                     ("name", .str tc.name),
                     ("input", tc.arguments)])))]
  else
    .obj [("role", .str m.role.toStr), ("content", .str m.content)]

/-- One-message conversion for the selected dialect (the final branch of
`get_messages_for_api`, conversation.py lines 120-123; both `_to_*_format`
loops append exactly one output dict per input message, so they are maps). -/
def convertMsg (style : ApiStyle) (jsonDumps : Json → String) (m : Message) : Json :=
  match style with
  | .anthropic => toAnthropicMsg m
  | .openai => toOpenaiMsg jsonDumps m

/-- The `Conversation.get_messages_for_api` method (conversation.py lines
66-123): backward budgeted accumulation that never splits a tool group,
then dropping of leading non-`user` messages, then dialect conversion. -/
def Conversation.getMessagesForApi (jsonDumps : Json → String) (c : Conversation)
    (maxChars : Nat) (style : ApiStyle) : List Json :=
  if c.messages.isEmpty then []
  else
    (dropLeadingNonUser (collectBack maxChars c.messages.reverse 0 [])).map
      (convertMsg style jsonDumps)

/-- State-threading form of `get_messages_for_api`.  The method body
(conversation.py lines 74-123) only reads `self.messages`: the accumulator
lists (`result`, `tool_group`) are freshly created locals, the converters
build new dicts for every output message, and no attribute of `self` is
ever assigned — so the embedded method leaves the conversation component
of the state unchanged. -/
def Conversation.getMessagesForApiSt (jsonDumps : Json → String) (c : Conversation)
    (maxChars : Nat) (style : ApiStyle) : Conversation × List Json :=
  (c, c.getMessagesForApi jsonDumps maxChars style)

/- ──────────────────────────────────────────────────────────────────────
   General list helpers for the truncation analysis
   ────────────────────────────────────────────────────────────────────── -/

theorem dropWhile_eq_drop {α : Type} (p : α → Bool) :
    ∀ l : List α, l.dropWhile p = l.drop (l.takeWhile p).length := by
  intro l
  induction l with
  | nil => simp
  | cons x xs ih =>
    by_cases h : p x
    · simp [List.dropWhile_cons, List.takeWhile_cons, h, ih]
    · simp [List.dropWhile_cons, List.takeWhile_cons, h]

theorem dropWhile_head_not {α : Type} (p : α → Bool) :
    ∀ (l : List α) (x : α) (xs : List α), l.dropWhile p = x :: xs → p x = false := by
  intro l
  induction l with
  | nil => intro x xs h; simp at h
  | cons y ys ih =>
    intro x xs h
    by_cases hy : p y
    · rw [List.dropWhile_cons, if_pos hy] at h
      exact ih x xs h
    · rw [List.dropWhile_cons, if_neg hy] at h
      cases h
      exact Bool.of_not_eq_true hy

/-- The truncation loop keeps a contiguous newest-first prefix of its input:
the result is always `(rev.take t).reverse ++ acc` for some `t`. -/
theorem collectBack_take (maxChars : Nat) :
    ∀ (n : Nat) (rev : List Message), rev.length ≤ n → ∀ (total : Nat) (acc : List Message),
      ∃ t, t ≤ rev.length ∧
        collectBack maxChars rev total acc = (rev.take t).reverse ++ acc := by
  intro n
  induction n with
  | zero =>
    intro rev hlen total acc
    have : rev = [] := List.eq_nil_of_length_eq_zero (Nat.le_zero.mp hlen)
    subst this
    exact ⟨0, Nat.le_refl 0, by simp [collectBack]⟩
  | succ n ih =>
    intro rev hlen total acc
    cases rev with
    | nil => exact ⟨0, Nat.le_refl 0, by simp [collectBack]⟩
    | cons m rest =>
      rw [collectBack]
      by_cases hrole : (m.role == Role.tool_result) = true
      · rw [if_pos hrole]
        by_cases hguard : total + (((groupAt m rest).1.reverse).map (fun x => x.content.length)).sum > maxChars ∧
            acc.isEmpty = false
        · exact ⟨0, Nat.zero_le _, by rw [if_pos hguard]; simp⟩
        · rw [if_neg hguard]
          have hlen2 : (groupAt m rest).2.length ≤ n := by
            have := groupAt_snd_length m rest
            simp only [List.length_cons] at hlen
            omega
          obtain ⟨t, ht, heq⟩ := ih (groupAt m rest).2 hlen2
            (total + (((groupAt m rest).1.reverse).map (fun x => x.content.length)).sum)
            ((groupAt m rest).1.reverse ++ acc)
          refine ⟨(groupAt m rest).1.length + t, ?_, ?_⟩
          · have hsplit := congrArg List.length (groupAt_append m rest)
            simp only [List.length_append, List.length_cons] at hsplit ⊢
            omega
          · rw [heq]
            have htake : (m :: rest).take ((groupAt m rest).1.length + t)
                = (groupAt m rest).1 ++ (groupAt m rest).2.take t := by
              conv_lhs => rw [← groupAt_append m rest]
              exact List.take_append t
            rw [htake, List.reverse_append, List.append_assoc]
      · rw [if_neg hrole]
        by_cases hguard : total + m.content.length > maxChars ∧ acc.isEmpty = false
        · exact ⟨0, Nat.zero_le _, by rw [if_pos hguard]; simp⟩
        · rw [if_neg hguard]
          have hlen2 : rest.length ≤ n := by
            simp only [List.length_cons] at hlen; omega
          obtain ⟨t, ht, heq⟩ := ih rest hlen2 (total + m.content.length) (m :: acc)
          refine ⟨t + 1, by simpa using Nat.succ_le_succ ht, ?_⟩
          rw [heq]
          simp [List.take_succ_cons, List.append_assoc]

/-- Closed form of `collectBack_take` without the fuel bound. -/
theorem collectBack_suffix (maxChars total : Nat) (rev acc : List Message) :
    ∃ t, t ≤ rev.length ∧
      collectBack maxChars rev total acc = (rev.take t).reverse ++ acc :=
  collectBack_take maxChars rev.length rev (Nat.le_refl _) total acc

theorem groupAt_fst_cons (m : Message) (rest : List Message) :
    ∃ l, (groupAt m rest).1 = m :: l := by
  unfold groupAt
  cases h : rest.dropWhile isToolResult with
  | nil => exact ⟨_, rfl⟩
  | cons a t => by_cases ha : a.role == .assistant <;> simp [ha]

/-- The budget check never rejects the newest message or newest tool group:
for a non-empty conversation the truncation loop always returns a non-empty
list ending in the most recent message, for every budget. -/
theorem collectBack_keeps_newest (maxChars : Nat) (msgs : List Message)
    (h : msgs ≠ []) :
    collectBack maxChars msgs.reverse 0 [] ≠ [] ∧
      (collectBack maxChars msgs.reverse 0 []).getLast? = msgs.getLast? := by
  obtain ⟨m, rest, hrev⟩ : ∃ m rest, msgs.reverse = m :: rest := by
    cases hr : msgs.reverse with
    | nil => exact absurd (by simpa using congrArg List.reverse hr) h
    | cons m rest => exact ⟨m, rest, rfl⟩
  have hlast : msgs.getLast? = some m := by
    rw [← List.head?_reverse, hrev]; rfl
  rw [hrev, hlast, collectBack]
  by_cases hrole : (m.role == Role.tool_result) = true
  · rw [if_pos hrole, if_neg (by simp)]
    obtain ⟨t, _, heq⟩ := collectBack_suffix maxChars
      (0 + (((groupAt m rest).1.reverse).map (fun x => x.content.length)).sum)
      (groupAt m rest).2 ((groupAt m rest).1.reverse ++ [])
    rw [heq]
    obtain ⟨l, hl⟩ := groupAt_fst_cons m rest
    have hg : ((groupAt m rest).1.reverse ++ ([] : List Message)).getLast? = some m := by
      rw [List.append_nil, List.getLast?_reverse, hl]; rfl
    constructor
    · intro hcontra
      have := congrArg List.getLast? hcontra
      rw [List.getLast?_append, hg] at this
      simp [Option.or] at this
    · rw [List.getLast?_append, hg]; rfl
  · rw [if_neg hrole, if_neg (by simp)]
    obtain ⟨t, _, heq⟩ := collectBack_suffix maxChars (0 + m.content.length) rest [m]
    rw [heq]
    constructor
    · intro hcontra
      have := congrArg List.getLast? hcontra
      rw [List.getLast?_append] at this
      simp [Option.or] at this
    · rw [List.getLast?_append]; rfl

/-- C4, counterexample: for a conversation whose only (hence most recent)
message is an assistant message, `get_messages_for_api` returns the empty
list — the leading-non-user filter (conversation.py lines 116-117) removes
the newest message even though the budget check kept it, so the most recent
message is *not* always kept in the output. -/
theorem c4_counterexample :
    Conversation.getMessagesForApi (fun _ => "")
        { messages := [{ role := .assistant, content := "hi" }],
          conversationId := "c", createdAt := 0, model := "m" } 100000 .openai = [] ∧
      ({ messages := [{ role := .assistant, content := "hi" }],
         conversationId := "c", createdAt := 0, model := "m" } : Conversation).messages ≠ [] :=
  ⟨by simp [Conversation.getMessagesForApi, collectBack, dropLeadingNonUser], by simp⟩

/-- C4 (amended): the *budget check* never excludes the newest message or
newest tool group — for every non-empty conversation and every budget the
truncation phase returns a non-empty list whose last element is the most
recent message; `get_messages_for_api` is exactly that truncation followed
by the leading-non-user drop and dialect conversion (which may still remove
the newest message, as `c4_counterexample` shows). -/
theorem c4_truncation_always_keeps_newest (jsonDumps : Json → String)
    (c : Conversation) (maxChars : Nat) (style : ApiStyle)
    (h : c.messages ≠ []) :
    collectBack maxChars c.messages.reverse 0 [] ≠ [] ∧
    (collectBack maxChars c.messages.reverse 0 []).getLast? = c.messages.getLast? ∧
    c.getMessagesForApi jsonDumps maxChars style =
      (dropLeadingNonUser (collectBack maxChars c.messages.reverse 0 [])).map
        (convertMsg style jsonDumps) := by
  obtain ⟨h1, h2⟩ := collectBack_keeps_newest maxChars c.messages h
  refine ⟨h1, h2, ?_⟩
  rw [Conversation.getMessagesForApi, if_neg (by simpa using h)]

/-- Witness for `c4_truncation_always_keeps_newest`: a one-message
conversation under a zero budget still keeps its newest message through
truncation. -/
theorem c4_witness :
    collectBack 0 ([{ role := Role.user, content := "hi" }] : List Message).reverse 0 [] ≠ [] ∧
    (collectBack 0 ([{ role := Role.user, content := "hi" }] : List Message).reverse 0 []).getLast?
      = ([{ role := Role.user, content := "hi" }] : List Message).getLast? ∧
    Conversation.getMessagesForApi (fun _ => "")
        { messages := [{ role := .user, content := "hi" }],
          conversationId := "c", createdAt := 0, model := "m" } 0 .openai =
      (dropLeadingNonUser (collectBack 0
          ([{ role := Role.user, content := "hi" }] : List Message).reverse 0 [])).map
        (convertMsg .openai (fun _ => "")) :=
  c4_truncation_always_keeps_newest (fun _ => "")
    { messages := [{ role := .user, content := "hi" }],
      conversationId := "c", createdAt := 0, model := "m" } 0 .openai (by simp)

/-- C7: whenever `get_messages_for_api` returns a non-empty list, the first
returned message has role `"user"` (for every conversation state, budget
and dialect). -/
theorem c7_first_message_role_user (jsonDumps : Json → String) (c : Conversation)
    (maxChars : Nat) (style : ApiStyle) (m : Json) (rest : List Json)
    (h : c.getMessagesForApi jsonDumps maxChars style = m :: rest) :
    m.get "role" = some (.str "user") := by
  by_cases he : c.messages.isEmpty
  · rw [Conversation.getMessagesForApi, if_pos he] at h
    exact absurd h (by simp)
  · rw [Conversation.getMessagesForApi, if_neg he] at h
    cases hk : dropLeadingNonUser (collectBack maxChars c.messages.reverse 0 []) with
    | nil => rw [hk] at h; exact absurd h (by simp)
    | cons k0 ks =>
      rw [hk] at h
      simp only [List.map_cons] at h
      injection h with h1 _
      have hk' : List.dropWhile (fun x => !(x.role == Role.user))
          (collectBack maxChars c.messages.reverse 0 []) = k0 :: ks := hk
      have hrole : k0.role = .user := by
        have := dropWhile_head_not (fun x => !(x.role == Role.user))
          (collectBack maxChars c.messages.reverse 0 []) k0 ks hk'
        simpa using this
      subst h1
      cases style <;>
        simp [convertMsg, toOpenaiMsg, toAnthropicMsg, hrole, Role.toStr, Json.get]

/-- C10: `get_messages_for_api` is read-only on the conversation — the
state-threaded method leaves the conversation (its message list, id,
creation time and model label) unchanged, so a later call with a different
dialect or budget computes from the same original history. -/
theorem c10_get_messages_for_api_read_only (jsonDumps : Json → String)
    (c : Conversation) (maxChars : Nat) (style : ApiStyle) :
    (c.getMessagesForApiSt jsonDumps maxChars style).1 = c ∧
    ∀ (maxChars' : Nat) (style' : ApiStyle),
      ((c.getMessagesForApiSt jsonDumps maxChars style).1).getMessagesForApi
          jsonDumps maxChars' style'
        = c.getMessagesForApi jsonDumps maxChars' style' :=
  ⟨rfl, fun _ _ => rfl⟩

/- ──────────────────────────────────────────────────────────────────────
   Atomicity of tool groups under truncation (claim C3 machinery)
   ────────────────────────────────────────────────────────────────────── -/

theorem dropWhile_ne_nil_of_getLast {α : Type} (p : α → Bool) (l : List α) (x : α)
    (hx : l.getLast? = some x) (hpx : p x = false) : l.dropWhile p ≠ [] := by
  intro hnil
  have hall := List.dropWhile_eq_nil_iff.mp hnil
  have hmem : x ∈ l := List.mem_of_mem_getLast? hx
  have := hall x hmem
  rw [hpx] at this
  exact Bool.false_ne_true this

theorem takeWhile_append_of_dropWhile_ne_nil {α : Type} (p : α → Bool)
    (l₁ l₂ : List α) (h : l₁.dropWhile p ≠ []) :
    (l₁ ++ l₂).takeWhile p = l₁.takeWhile p ∧
    (l₁ ++ l₂).dropWhile p = l₁.dropWhile p ++ l₂ := by
  have hlen : (l₁.takeWhile p).length ≠ l₁.length := by
    intro hlen
    apply h
    have hsplit := congrArg List.length (List.takeWhile_append_dropWhile p l₁)
    simp only [List.length_append] at hsplit
    have : (l₁.dropWhile p).length = 0 := by omega
    exact List.eq_nil_of_length_eq_zero this
  constructor
  · rw [List.takeWhile_append, if_neg hlen]
  · rw [List.dropWhile_append, if_neg (by simpa [List.isEmpty_iff] using h)]

theorem takeWhile_append_of_all {α : Type} (p : α → Bool)
    (l₁ l₂ : List α) (h : ∀ x ∈ l₁, p x = true) :
    (l₁ ++ l₂).takeWhile p = l₁ ++ l₂.takeWhile p ∧
    (l₁ ++ l₂).dropWhile p = l₂.dropWhile p := by
  have hdrop : l₁.dropWhile p = [] := List.dropWhile_eq_nil_iff.mpr h
  have htake : l₁.takeWhile p = l₁ := by
    have := List.takeWhile_append_dropWhile p l₁
    rw [hdrop, List.append_nil] at this
    exact this
  constructor
  · rw [List.takeWhile_append, if_pos (by rw [htake])]
  · rw [List.dropWhile_append, if_pos (by rw [hdrop]; rfl)]

theorem groupAt_append_tail (m : Message) (rs tail : List Message)
    (h : rs.dropWhile isToolResult ≠ []) :
    (groupAt m (rs ++ tail)).1 = (groupAt m rs).1 ∧
    (groupAt m (rs ++ tail)).2 = (groupAt m rs).2 ++ tail := by
  obtain ⟨htake, hdrop⟩ := takeWhile_append_of_dropWhile_ne_nil isToolResult rs tail h
  obtain ⟨b, bs, hbs⟩ : ∃ b bs, rs.dropWhile isToolResult = b :: bs := by
    cases hc : rs.dropWhile isToolResult with
    | nil => exact absurd hc h
    | cons b bs => exact ⟨b, bs, rfl⟩
  unfold groupAt
  rw [htake, hdrop, hbs]
  by_cases hb : b.role == .assistant
  · simp [hb]
  · simp [hb]

theorem groupAt_snd_getLast (m : Message) (rs : List Message)
    (h : (groupAt m rs).2 ≠ []) :
    (groupAt m rs).2.getLast? = rs.getLast? := by
  obtain ⟨l, hl⟩ := groupAt_fst_cons m rs
  have happ := groupAt_append m rs
  rw [hl] at happ
  simp only [List.cons_append, List.cons.injEq, true_and] at happ
  conv_rhs => rw [← happ]
  exact (List.getLast?_append_of_ne_nil l h).symm

theorem getLast?_cons_of_ne_nil {α : Type} (m : α) (rs : List α) (h : rs ≠ []) :
    (m :: rs).getLast? = rs.getLast? := by
  obtain ⟨y, hy⟩ : ∃ y, rs.getLast? = some y := by
    cases hc : rs.getLast? with
    | none => exact absurd (by simpa using hc) h
    | some y => exact ⟨y, rfl⟩
  rw [List.getLast?_cons, hy]
  rfl

/-- Segment lemma for the truncation walk: while processing a newest-first
segment `rseg` whose oldest element is not a `tool_result` (so no tool
group can extend past the segment boundary), the loop either stops inside
the segment — keeping a newest-first prefix of it — or consumes the whole
segment and continues into `tail`. -/
theorem collectBack_segment (maxChars : Nat) :
    ∀ (n : Nat) (rseg : List Message), rseg.length ≤ n →
      (∀ x, rseg.getLast? = some x → isToolResult x = false) →
      ∀ (tail : List Message) (total : Nat) (acc : List Message),
      (∃ t, t ≤ rseg.length ∧
        collectBack maxChars (rseg ++ tail) total acc = (rseg.take t).reverse ++ acc) ∨
      (∃ total', collectBack maxChars (rseg ++ tail) total acc
          = collectBack maxChars tail total' (rseg.reverse ++ acc)) := by
  intro n
  induction n with
  | zero =>
    intro rseg hlen _ tail total acc
    have : rseg = [] := List.eq_nil_of_length_eq_zero (Nat.le_zero.mp hlen)
    subst this
    exact Or.inr ⟨total, by simp⟩
  | succ n ih =>
    intro rseg hlen hlast tail total acc
    cases rseg with
    | nil => exact Or.inr ⟨total, by simp⟩
    | cons m rs =>
      simp only [List.cons_append]
      rw [collectBack]
      by_cases hrole : (m.role == Role.tool_result) = true
      · rw [if_pos hrole]
        have hrs : rs ≠ [] := by
          intro h0
          subst h0
          have := hlast m (by simp)
          rw [isToolResult, hrole] at this
          simp at this
        have hlast' : ∀ x, rs.getLast? = some x → isToolResult x = false := by
          intro x hx
          exact hlast x (by rw [getLast?_cons_of_ne_nil m rs hrs]; exact hx)
        obtain ⟨y, hy⟩ : ∃ y, rs.getLast? = some y := by
          cases hc : rs.getLast? with
          | none => exact absurd (by simpa using hc) hrs
          | some y => exact ⟨y, rfl⟩
        have hdw : rs.dropWhile isToolResult ≠ [] :=
          dropWhile_ne_nil_of_getLast _ rs y hy (hlast' y hy)
        obtain ⟨hg1, hg2⟩ := groupAt_append_tail m rs tail hdw
        rw [hg1, hg2]
        by_cases hguard : total +
            (((groupAt m rs).1.reverse).map (fun x => x.content.length)).sum > maxChars ∧
            acc.isEmpty = false
        · rw [if_pos hguard]
          exact Or.inl ⟨0, Nat.zero_le _, by simp⟩
        · rw [if_neg hguard]
          have hlen2 : (groupAt m rs).2.length ≤ n := by
            have := groupAt_snd_length m rs
            simp only [List.length_cons] at hlen
            omega
          have hlast2 : ∀ x, (groupAt m rs).2.getLast? = some x → isToolResult x = false := by
            intro x hx
            have hne : (groupAt m rs).2 ≠ [] := by
              intro h0; rw [h0] at hx; simp at hx
            rw [groupAt_snd_getLast m rs hne] at hx
            exact hlast' x hx
          rcases ih (groupAt m rs).2 hlen2 hlast2 tail
              (total + (((groupAt m rs).1.reverse).map (fun x => x.content.length)).sum)
              ((groupAt m rs).1.reverse ++ acc) with ⟨t, ht, heq⟩ | ⟨total', heq⟩
          · refine Or.inl ⟨(groupAt m rs).1.length + t, ?_, ?_⟩
            · have hsplit := congrArg List.length (groupAt_append m rs)
              simp only [List.length_append, List.length_cons] at hsplit ⊢
              omega
            · rw [heq]
              have htake : (m :: rs).take ((groupAt m rs).1.length + t)
                  = (groupAt m rs).1 ++ (groupAt m rs).2.take t := by
                conv_lhs => rw [← groupAt_append m rs]
                exact List.take_append t
              rw [htake, List.reverse_append, List.append_assoc]
          · refine Or.inr ⟨total', ?_⟩
            rw [heq, ← List.append_assoc, ← List.reverse_append, groupAt_append]
      · rw [if_neg hrole]
        by_cases hguard : total + m.content.length > maxChars ∧ acc.isEmpty = false
        · rw [if_pos hguard]
          exact Or.inl ⟨0, Nat.zero_le _, by simp⟩
        · rw [if_neg hguard]
          have hlast' : ∀ x, rs.getLast? = some x → isToolResult x = false := by
            intro x hx
            have hrs : rs ≠ [] := by intro h0; rw [h0] at hx; simp at hx
            exact hlast x (by rw [getLast?_cons_of_ne_nil m rs hrs]; exact hx)
          have hlen2 : rs.length ≤ n := by
            simp only [List.length_cons] at hlen; omega
          rcases ih rs hlen2 hlast' tail (total + m.content.length) (m :: acc) with
            ⟨t, ht, heq⟩ | ⟨total', heq⟩
          · refine Or.inl ⟨t + 1, by simpa using Nat.succ_le_succ ht, ?_⟩
            rw [heq]
            simp [List.take_succ_cons, List.append_assoc]
          · refine Or.inr ⟨total', ?_⟩
            rw [heq]
            simp [List.append_assoc]

theorem groupAt_of_all_tr (m : Message) (rs : List Message) (a : Message)
    (pre2 : List Message) (hrs : ∀ x ∈ rs, isToolResult x = true)
    (ha : a.role = .assistant) :
    groupAt m (rs ++ a :: pre2) = (m :: (rs ++ [a]), pre2) := by
  have hta : isToolResult a = false := by simp [isToolResult, ha]
  obtain ⟨htake, hdrop⟩ := takeWhile_append_of_all isToolResult rs (a :: pre2) hrs
  have hdrop2 : (a :: pre2).dropWhile isToolResult = a :: pre2 := by
    rw [List.dropWhile_cons, if_neg (by rw [hta]; simp)]
  have htake2 : (a :: pre2).takeWhile isToolResult = [] := by
    rw [List.takeWhile_cons, if_neg (by rw [hta]; simp)]
  unfold groupAt
  rw [hdrop, hdrop2, htake, htake2, List.append_nil]
  simp [ha]

/-- When the truncation walk reaches the newest `tool_result` of a run
`trs` whose issuing assistant message `a` directly precedes it, the whole
group `a :: trs` is admitted or rejected in one step. -/
theorem collectBack_group_step (maxChars : Nat) (trs : List Message) (a : Message)
    (pre2 : List Message) (total : Nat) (acc : List Message)
    (h0 : trs ≠ []) (htr : ∀ x ∈ trs, x.role = .tool_result)
    (ha : a.role = .assistant) :
    collectBack maxChars (trs.reverse ++ a :: pre2) total acc
      = if total + ((a :: trs).map (fun x => x.content.length)).sum > maxChars ∧
            acc.isEmpty = false
        then acc
        else collectBack maxChars pre2
          (total + ((a :: trs).map (fun x => x.content.length)).sum)
          ((a :: trs) ++ acc) := by
  obtain ⟨m, rs, hrev⟩ : ∃ m rs, trs.reverse = m :: rs := by
    cases hr : trs.reverse with
    | nil => exact absurd (by simpa using congrArg List.reverse hr) h0
    | cons m rs => exact ⟨m, rs, rfl⟩
  have hm : m.role = .tool_result := by
    apply htr
    have : m ∈ trs.reverse := by rw [hrev]; exact List.mem_cons_self m rs
    simpa using this
  have hrs : ∀ x ∈ rs, isToolResult x = true := by
    intro x hx
    have : x ∈ trs.reverse := by rw [hrev]; exact List.mem_cons_of_mem m hx
    have : x ∈ trs := by simpa using this
    simp [isToolResult, htr x this]
  have hgrp := groupAt_of_all_tr m rs a pre2 hrs ha
  have hgrev : (m :: (rs ++ [a])).reverse = a :: trs := by
    have : m :: (rs ++ [a]) = trs.reverse ++ [a] := by rw [hrev]; simp
    rw [this, List.reverse_append, List.reverse_reverse]
    rfl
  rw [hrev, List.cons_append, collectBack, if_pos (by simp [hm]), hgrp]
  rw [hgrev]

/-- Truncation (the budgeted backward accumulation alone) keeps a suffix of
the conversation whose cut point never falls strictly inside an
assistant + tool_result group. -/
theorem collectBack_atomic (maxChars : Nat) (pre : List Message) (a : Message)
    (trs post : List Message)
    (ha : a.role = .assistant) (h0 : trs ≠ [])
    (htr : ∀ x ∈ trs, x.role = .tool_result)
    (hpost : ∀ p0, post.head? = some p0 → p0.role ≠ .tool_result) :
    ∃ k, collectBack maxChars (pre ++ a :: (trs ++ post)).reverse 0 []
        = (pre ++ a :: (trs ++ post)).drop k
      ∧ (k ≤ pre.length ∨ pre.length + 1 + trs.length ≤ k) := by
  have hrev : (pre ++ a :: (trs ++ post)).reverse
      = post.reverse ++ (trs.reverse ++ a :: pre.reverse) := by
    simp [List.reverse_append, List.append_assoc]
  have hregroup : pre ++ a :: (trs ++ post) = (pre ++ (a :: trs)) ++ post := by
    simp
  have hlast : ∀ x, post.reverse.getLast? = some x → isToolResult x = false := by
    intro x hx
    rw [List.getLast?_reverse] at hx
    have := hpost x hx
    simp [isToolResult, this]
  rw [hrev]
  rcases collectBack_segment maxChars post.reverse.length post.reverse (Nat.le_refl _)
      hlast (trs.reverse ++ a :: pre.reverse) 0 [] with ⟨t, ht, heq⟩ | ⟨total1, heq⟩
  · -- the walk stopped inside `post`: everything kept lies past the group
    refine ⟨pre.length + 1 + trs.length + (post.length - t), ?_, Or.inr (by omega)⟩
    rw [heq, List.append_nil, List.take_reverse, List.reverse_reverse]
    rw [hregroup]
    rw [(by simp [List.length_append]; omega :
      pre.length + 1 + trs.length + (post.length - t)
        = (pre ++ (a :: trs)).length + (post.length - t))]
    rw [List.drop_append]
  · -- the whole of `post` was admitted; next the walk meets the group head-on
    rw [heq, List.reverse_reverse, List.append_nil]
    rw [collectBack_group_step maxChars trs a pre.reverse total1 post h0 htr ha]
    by_cases hguard : total1 + ((a :: trs).map (fun x => x.content.length)).sum > maxChars ∧
        (post.isEmpty = false)
    · -- group rejected: result is exactly `post`
      refine ⟨pre.length + 1 + trs.length, ?_, Or.inr (Nat.le_refl _)⟩
      rw [if_pos hguard, hregroup]
      rw [(by simp [List.length_append]; omega :
        pre.length + 1 + trs.length = (pre ++ (a :: trs)).length + 0)]
      rw [List.drop_append]
      rfl
    · -- group admitted: the walk continues into `pre`
      rw [if_neg hguard]
      obtain ⟨t, ht, heq2⟩ := collectBack_suffix maxChars
        (total1 + ((a :: trs).map (fun x => x.content.length)).sum)
        pre.reverse ((a :: trs) ++ post)
      refine ⟨pre.length - t, ?_, Or.inl (by omega)⟩
      rw [heq2, List.take_reverse, List.reverse_reverse,
        List.drop_append_of_le_length (by omega)]
      simp

/-- The leading-non-user drop moves the cut only further down, and can
never stop strictly inside an assistant + tool_result group (none of the
group's members has role `user`). -/
theorem dropLeading_atomic (pre : List Message) (a : Message) (trs post : List Message)
    (htr : ∀ x ∈ trs, x.role = .tool_result) (k : Nat) :
    ∃ k', dropLeadingNonUser ((pre ++ a :: (trs ++ post)).drop k)
        = (pre ++ a :: (trs ++ post)).drop k'
      ∧ (k' ≤ pre.length ∨ pre.length + 1 + trs.length ≤ k') := by
  have hdw : dropLeadingNonUser ((pre ++ a :: (trs ++ post)).drop k)
      = (pre ++ a :: (trs ++ post)).drop
          (k + (((pre ++ a :: (trs ++ post)).drop k).takeWhile
            (fun m => !(m.role == Role.user))).length) := by
    rw [dropLeadingNonUser, dropWhile_eq_drop, List.drop_drop]
  set j := (((pre ++ a :: (trs ++ post)).drop k).takeWhile
    (fun m => !(m.role == Role.user))).length with hj
  refine ⟨k + j, hdw, ?_⟩
  by_cases hle : k + j ≤ pre.length
  · exact Or.inl hle
  by_cases hge : pre.length + 1 + trs.length ≤ k + j
  · exact Or.inr hge
  -- the cut would land strictly inside the group: impossible
  exfalso
  have hlen : (pre ++ a :: (trs ++ post)).length
      = pre.length + 1 + trs.length + post.length := by
    simp; omega
  have hne : (pre ++ a :: (trs ++ post)).drop (k + j) ≠ [] := by
    intro hnil
    rw [List.drop_eq_nil_iff] at hnil
    omega
  obtain ⟨x, xs, hxs⟩ : ∃ x xs, (pre ++ a :: (trs ++ post)).drop (k + j) = x :: xs := by
    cases hc : (pre ++ a :: (trs ++ post)).drop (k + j) with
    | nil => exact absurd hc hne
    | cons x xs => exact ⟨x, xs, rfl⟩
  have hxuser : x.role = .user := by
    have hdweq : ((pre ++ a :: (trs ++ post)).drop k).dropWhile
        (fun m => !(m.role == Role.user)) = x :: xs := by
      have h2 := hdw
      rw [dropLeadingNonUser] at h2
      rw [h2]
      exact hxs
    have := dropWhile_head_not (fun m => !(m.role == Role.user)) _ x xs hdweq
    simpa using this
  -- identify x as the tool_result at position k + j
  have hhead : (pre ++ a :: (trs ++ post))[k + j]? = some x := by
    have h1 : ((pre ++ a :: (trs ++ post)).drop (k + j)).head? = some x := by
      rw [hxs]; rfl
    rw [List.head?_eq_getElem?, List.getElem?_drop, Nat.add_zero] at h1
    exact h1
  have hsplit2 : pre ++ a :: (trs ++ post) = (pre ++ [a]) ++ (trs ++ post) := by
    simp
  have hlen2 : (pre ++ [a]).length = pre.length + 1 := by simp
  have hu : k + j - (pre.length + 1) < trs.length := by omega
  have hxtr : x ∈ trs := by
    rw [hsplit2, List.getElem?_append_right (by rw [hlen2]; omega), hlen2] at hhead
    rw [List.getElem?_append_left hu] at hhead
    have := List.getElem?_eq_some_iff.mp hhead
    obtain ⟨hlt, hx⟩ := this
    rw [← hx]
    exact List.getElem_mem hlt
  have := htr x hxtr
  rw [hxuser] at this
  exact absurd this (by simp)

/-- C3: for a conversation in which an assistant message carrying N tool
calls is immediately followed by its N tool_result messages (and by
nothing else of the group), `get_messages_for_api` returns, for every
budget and dialect, the image of a suffix of the conversation whose cut
point is never strictly inside the group — the assistant + tool_result
group is admitted or rejected atomically, never split into a proper prefix
or suffix. -/
theorem c3_truncation_never_splits_tool_group (jsonDumps : Json → String)
    (cid : String) (ct : Nat) (mdl : String)
    (pre : List Message) (a : Message) (trs post : List Message)
    (maxChars : Nat) (style : ApiStyle)
    (ha : a.role = .assistant) (hn : a.toolCalls.length = trs.length)
    (h0 : trs ≠ []) (htr : ∀ x ∈ trs, x.role = .tool_result)
    (hpost : ∀ p0, post.head? = some p0 → p0.role ≠ .tool_result) :
    ∃ k, Conversation.getMessagesForApi jsonDumps
          { messages := pre ++ a :: (trs ++ post), conversationId := cid,
            createdAt := ct, model := mdl } maxChars style
        = ((pre ++ a :: (trs ++ post)).drop k).map (convertMsg style jsonDumps)
      ∧ (k ≤ pre.length ∨ pre.length + 1 + trs.length ≤ k) := by
  obtain ⟨k, hkeq, hk⟩ := collectBack_atomic maxChars pre a trs post ha h0 htr hpost
  obtain ⟨k', hk'eq, hk'⟩ := dropLeading_atomic pre a trs post htr k
  refine ⟨k', ?_, hk'⟩
  rw [Conversation.getMessagesForApi,
    if_neg (by simp [List.isEmpty_iff])]
  rw [hkeq, hk'eq]

/-- Witness for `c3_truncation_never_splits_tool_group` at a concrete
4-message conversation (user turn, assistant with one tool call, its tool
result, follow-up user turn) and a tiny budget. -/
theorem c3_witness :
    ∃ k, Conversation.getMessagesForApi (fun _ => "")
          { messages := ([{ role := .user, content := "hi" }] : List Message) ++
              ({ role := Role.assistant, content := "x",
                 toolCalls := [{ id := "1", name := "t", arguments := Json.obj [] }] } : Message) ::
              (([{ role := Role.tool_result, content := "ok", toolCallId := "1" }] : List Message) ++
               ([{ role := Role.user, content := "next" }] : List Message)),
            conversationId := "c", createdAt := 0, model := "m" } 3 .openai
        = ((([{ role := .user, content := "hi" }] : List Message) ++
            ({ role := Role.assistant, content := "x",
               toolCalls := [{ id := "1", name := "t", arguments := Json.obj [] }] } : Message) ::
            (([{ role := Role.tool_result, content := "ok", toolCallId := "1" }] : List Message) ++
             ([{ role := Role.user, content := "next" }] : List Message))).drop k).map
          (convertMsg .openai (fun _ => ""))
      ∧ (k ≤ 1 ∨ 1 + 1 + 1 ≤ k) := by
  have h := c3_truncation_never_splits_tool_group (fun _ => "") "c" 0 "m"
    [{ role := .user, content := "hi" }]
    { role := Role.assistant, content := "x",
      toolCalls := [{ id := "1", name := "t", arguments := Json.obj [] }] }
    [{ role := Role.tool_result, content := "ok", toolCallId := "1" }]
    [{ role := Role.user, content := "next" }] 3 .openai
    rfl rfl (by simp) (by simp) (by simp)
  simpa using h

/-- Witness for `c7_first_message_role_user`: a single-user-message
conversation produces a non-empty output whose head has role `"user"`. -/
theorem c7_witness :
    (Json.obj [("role", .str "user"), ("content", .str "hi")]).get "role"
      = some (.str "user") :=
  c7_first_message_role_user (fun _ => "")
    { messages := [{ role := .user, content := "hi" }], conversationId := "c",
      createdAt := 0, model := "m" } 10 .openai
    (Json.obj [("role", .str "user"), ("content", .str "hi")]) []
    (by simp [Conversation.getMessagesForApi, collectBack, dropLeadingNonUser,
      convertMsg, toOpenaiMsg, Role.toStr])

/- ──────────────────────────────────────────────────────────────────────
   Tool registry  (src/freecad_ai/tools/registry.py)
   ────────────────────────────────────────────────────────────────────── -/

/-- The `ToolParam` dataclass (registry.py lines 12-21). -/
structure ToolParam where
  name : String
  type : String
  description : String
  required : Bool := true
  enum : Option Json := none
  default : Option Json := none
  items : Option Json := none

/-- The `ToolResult` dataclass (registry.py lines 34-40). -/
structure ToolResult where
  success : Bool
  output : String
  data : List (String × Json) := []
  error : String := ""

/-- Outcome of the Python call `tool.handler(**params)` (registry.py line
69): a normal `ToolResult`, a `TypeError` (raised either by the
keyword-argument binding when the argument shape does not match the
handler's signature, or inside the handler), or any other exception; the
string is the exception's `str(e)` text. -/
inductive HandlerOutcome where
  | ok (r : ToolResult)
  | typeError (msg : String)
  | raised (msg : String)

/-- The `ToolDefinition` dataclass (registry.py lines 24-31); the handler
is modelled as a total function from the keyword-argument dict to a
`HandlerOutcome`. -/
structure ToolDefinition where
  name : String
  description : String
  parameters : List ToolParam
  handler : List (String × Json) → HandlerOutcome
  category : String := "general"

/-- The `ToolRegistry` class (registry.py lines 43-102): `self._tools` is
an insertion-ordered dict from tool name to definition. -/
structure ToolRegistry where
  tools : List (String × ToolDefinition) := []

/-- `ToolRegistry.register` (registry.py lines 49-51): Python dict
assignment — an existing key keeps its position and gets the new value,
a new key is appended. -/
def ToolRegistry.register (reg : ToolRegistry) (td : ToolDefinition) : ToolRegistry :=
  if (reg.tools.lookup td.name).isSome then
    { tools := reg.tools.map (fun p => if p.1 == td.name then (td.name, td) else p) }
  else
    { tools := reg.tools ++ [(td.name, td)] }

/-- `ToolRegistry.get` (registry.py lines 53-55). -/
def ToolRegistry.get (reg : ToolRegistry) (name : String) : Option ToolDefinition :=
  reg.tools.lookup name

/-- `ToolRegistry.execute` (registry.py lines 61-77): total over its
inputs — an unknown name, a `TypeError` and any other handler exception
are each converted to a failed `ToolResult`; nothing propagates. -/
def ToolRegistry.execute (reg : ToolRegistry) (name : String)
    (params : List (String × Json)) : ToolResult :=
  match reg.get name with
  | none => { success := false, output := "", error := s!"Unknown tool: {name}" }
  | some tool =>
    match tool.handler params with
    | .ok r => r
    | .typeError e =>
      { success := false, output := "", error := s!"Invalid parameters for {name}: {e}" }
    | .raised e =>
      { success := false, output := "", error := s!"Tool {name} failed: {e}" }

/-- C8: `ToolRegistry.execute` is total — it returns a `ToolResult` for
every name and argument dict (its Lean type is the totality claim), an
unregistered name yields the unknown-tool failure, a `TypeError` from the
handler call yields the invalid-parameters failure, and any other handler
exception is caught and reported with its message; a normal handler result
is returned as-is. -/
theorem c8_execute_total (reg : ToolRegistry) (name : String)
    (params : List (String × Json)) :
    (reg.get name = none →
      reg.execute name params
        = { success := false, output := "", error := s!"Unknown tool: {name}" }) ∧
    (∀ td, reg.get name = some td →
      (∀ e, td.handler params = .typeError e →
        reg.execute name params
          = { success := false, output := "",
              error := s!"Invalid parameters for {name}: {e}" }) ∧
      (∀ e, td.handler params = .raised e →
        reg.execute name params
          = { success := false, output := "", error := s!"Tool {name} failed: {e}" }) ∧
      (∀ r, td.handler params = .ok r → reg.execute name params = r)) := by
  constructor
  · intro h
    simp only [ToolRegistry.execute, h]
  · intro td h
    refine ⟨?_, ?_, ?_⟩
    · intro e he
      simp only [ToolRegistry.execute, h, he]
    · intro e he
      simp only [ToolRegistry.execute, h, he]
    · intro r hr
      simp only [ToolRegistry.execute, h, hr]

/-- Witness for `c8_execute_total`: a concrete registry containing one
tool whose handler raises, executed on that tool (exception captured), and
on an unknown name (unknown-tool failure). -/
theorem c8_witness :
    (ToolRegistry.execute
        { tools := [("boom",
            { name := "boom", description := "", parameters := [],
              handler := fun _ => .raised "kaput" })] } "boom" []
      = { success := false, output := "", error := "Tool boom failed: kaput" }) ∧
    (ToolRegistry.execute { tools := [] } "nope" []
      = { success := false, output := "", error := "Unknown tool: nope" }) := by
  constructor
  · exact (((c8_execute_total
      { tools := [("boom",
          { name := "boom", description := "", parameters := [],
            handler := fun _ => .raised "kaput" })] } "boom" []).2
      { name := "boom", description := "", parameters := [],
        handler := fun _ => .raised "kaput" } rfl).2.1 "kaput" rfl)
  · exact (c8_execute_total { tools := [] } "nope" []).1 rfl

/- ──────────────────────────────────────────────────────────────────────
   MCP manager  (src/freecad_ai/mcp/manager.py, client dataclasses from
   src/freecad_ai/mcp/client.py)
   ────────────────────────────────────────────────────────────────────── -/

/-- The `MCPToolInfo` dataclass (client.py lines 18-23). -/
structure MCPToolInfo where
  name : String
  description : String
  inputSchema : Json := .obj []

/-- The `MCPToolResult` dataclass (client.py lines 26-30). -/
structure MCPToolResult where
  content : List Json := []
  isError : Bool := false

/-- The observable surface of one connected `MCPClient` used by the
manager: its discovered tool catalog, its connection state, and
`call_tool` (which may raise on transport failure, modelled by
`Except`). -/
structure MCPClient where
  name : String
  tools : List MCPToolInfo := []
  isConnected : Bool := false
  callTool : String → List (String × Json) → Except String MCPToolResult :=
    fun _ _ => .error "not connected"

/-- The `MCPManager` class (manager.py lines 15-19): `self._clients` is an
insertion-ordered dict from server name to client. -/
structure MCPManager where
  clients : List (String × MCPClient) := []

/-- `_mcp_result_to_tool_result` (manager.py lines 90-103).  `pyRepr`
models Python `str(...)` on a non-text content item. -/
def mcpResultToToolResult (pyRepr : Json → String) (r : MCPToolResult) : ToolResult :=
  let textParts := r.content.map (fun item =>
    match item.get "type" with
    | some (.str t) => if t = "text" then item.getStrD "text" "" else pyRepr item
    | _ => pyRepr item)
  let output := String.intercalate "\n" textParts
  if r.isError then { success := false, output := "", error := output }
  else { success := true, output := output }

/-- `_json_schema_to_tool_params` (manager.py lines 106-127): object
schemas yield one `ToolParam` per property, everything else yields zero
parameters (an empty dict is falsy in Python, and also has no `"type"`
key, so both guards collapse into the type test). -/
def jsonSchemaToToolParams (schema : Json) : List ToolParam :=
  match schema.get "type" with
  | some (.str t) =>
    if t = "object" then
      let properties := ((schema.get "properties").getD (.obj [])).asObj
      let rawRequired : List Json := match schema.get "required" with
        | some (.arr xs) => xs
        | _ => []
      let requiredKeys : List String :=
        rawRequired.filterMap (fun x => match x with | .str s => some s | _ => none)
      properties.map (fun p =>
        { name := p.1,
          type := p.2.getStrD "type" "string",
          description := p.2.getStrD "description" "",
          required := requiredKeys.contains p.1,
          enum := p.2.get "enum",
          default := p.2.get "default",
          items := p.2.get "items" })
    else []
  | _ => []

/-- The closure-bound handler built by `make_handler` (manager.py lines
66-70): call through to the captured client and convert the result; an
exception from `call_tool` propagates out of the handler (and is caught by
`ToolRegistry.execute`). -/
def mcpHandler (pyRepr : Json → String) (c : MCPClient) (toolName : String)
    (kwargs : List (String × Json)) : HandlerOutcome :=
  match c.callTool toolName kwargs with
  | .ok r => .ok (mcpResultToToolResult pyRepr r)
  | .error e => .raised e

/-- `MCPManager.register_tools_into` (manager.py lines 53-79): for every
currently connected client, register each of its tools under the
namespaced name `"{server_name}__{tool_name}"`. -/
def MCPManager.registerToolsInto (pyRepr : Json → String) (m : MCPManager)
    (reg : ToolRegistry) : ToolRegistry :=
  m.clients.foldl (fun reg p =>
    if p.2.isConnected = false then reg
    else p.2.tools.foldl (fun reg info =>
      reg.register
        { name := p.1 ++ "__" ++ info.name,
          description := "[" ++ p.1 ++ "] " ++ info.description,
          parameters := jsonSchemaToToolParams info.inputSchema,
          handler := mcpHandler pyRepr p.2 info.name,
          category := "mcp" }) reg) reg

/-- Python `"__" in name` on the character list of the string. -/
def hasDoubleUnderscore : List Char → Bool
  | [] => false
  | [_] => false
  | c1 :: c2 :: rest =>
    if c1 = '_' ∧ c2 = '_' then true else hasDoubleUnderscore (c2 :: rest)

/-- Python `name.split("__", 1)[0]` on the character list: the characters
before the first occurrence of `"__"` (the whole list when there is
none). -/
def beforeDoubleUnderscore : List Char → List Char
  | [] => []
  | [c] => [c]
  | c1 :: c2 :: rest =>
    if c1 = '_' ∧ c2 = '_' then [] else c1 :: beforeDoubleUnderscore (c2 :: rest)

/-- `MCPManager.is_mcp_tool` (manager.py lines 81-83):
`"__" in name and name.split("__", 1)[0] in self._clients`. -/
def MCPManager.isMcpTool (m : MCPManager) (name : String) : Bool :=
  hasDoubleUnderscore name.data &&
    (m.clients.lookup (String.mk (beforeDoubleUnderscore name.data))).isSome

theorem lookup_append_of_none {β : Type} (k : String) :
    ∀ l₁ l₂ : List (String × β), l₁.lookup k = none →
      (l₁ ++ l₂).lookup k = l₂.lookup k := by
  intro l₁
  induction l₁ with
  | nil => intro l₂ _; rfl
  | cons p ps ih =>
    intro l₂ h
    obtain ⟨a, b⟩ := p
    by_cases hk : (k == a) = true
    · rw [List.lookup, hk] at h
      simp at h
    · have hk' : (k == a) = false := by simpa using hk
      rw [List.lookup, hk'] at h
      rw [List.cons_append, List.lookup, hk']
      exact ih l₂ h

theorem lookup_map_overwrite {β : Type} (k : String) (v : β) :
    ∀ l : List (String × β),
      (l.map (fun p => if p.1 == k then (k, v) else p)).lookup k
        = if (l.lookup k).isSome then some v else none := by
  intro l
  induction l with
  | nil => rfl
  | cons p ps ih =>
    obtain ⟨a, b⟩ := p
    simp only [List.map_cons]
    by_cases ha : a = k
    · subst ha
      rw [if_pos (by simp : (((a, b).1 : String) == a) = true)]
      simp [List.lookup_cons_self]
    · have hak : ((a : String) == k) = false := beq_false_of_ne ha
      have hka : ((k : String) == a) = false := beq_false_of_ne (fun hh => ha hh.symm)
      rw [if_neg (by simp [hak])]
      rw [List.lookup_cons, List.lookup_cons, hka, ih]

/-- C9: after `register_tools_into` runs for a manager owning one
connected server named `"fs"` that exposes a tool named `"read"`, the
target registry contains a tool definition keyed and named `"fs__read"`,
and `is_mcp_tool "fs__read"` is true while `is_mcp_tool "read"` is
false. -/
theorem c9_mcp_namespacing (pyRepr : Json → String) (reg : ToolRegistry)
    (c : MCPClient) (d : String) (s : Json) (m : MCPManager)
    (hm : m.clients = [("fs", c)])
    (hconn : c.isConnected = true)
    (htools : c.tools = [{ name := "read", description := d, inputSchema := s }]) :
    (∃ td, (m.registerToolsInto pyRepr reg).get "fs__read" = some td ∧
      td.name = "fs__read") ∧
    m.isMcpTool "fs__read" = true ∧
    m.isMcpTool "read" = false := by
  refine ⟨?_, ?_, ?_⟩
  · rw [MCPManager.registerToolsInto, hm]
    simp only [List.foldl_cons, List.foldl_nil, hconn, htools]
    rw [if_neg (by simp [hconn])]
    rw [ToolRegistry.register]
    by_cases hdup : ((reg.tools.lookup ("fs" ++ "__" ++ "read")).isSome = true)
    · rw [if_pos hdup]
      refine ⟨{ name := "fs" ++ "__" ++ "read",
                description := "[" ++ "fs" ++ "] " ++ d,
                parameters := jsonSchemaToToolParams s,
                handler := mcpHandler pyRepr c "read",
                category := "mcp" }, ?_, rfl⟩
      exact (lookup_map_overwrite ("fs" ++ "__" ++ "read") _ reg.tools).trans
        (by rw [if_pos hdup])
    · rw [if_neg hdup]
      refine ⟨{ name := "fs" ++ "__" ++ "read",
                description := "[" ++ "fs" ++ "] " ++ d,
                parameters := jsonSchemaToToolParams s,
                handler := mcpHandler pyRepr c "read",
                category := "mcp" }, ?_, rfl⟩
      have hnone : reg.tools.lookup ("fs" ++ "__" ++ "read") = none :=
        Option.not_isSome_iff_eq_none.mp (by simpa using hdup)
      exact (lookup_append_of_none ("fs" ++ "__" ++ "read") reg.tools _ hnone).trans rfl
  · rw [MCPManager.isMcpTool, hm]
    rfl
  · rw [MCPManager.isMcpTool, hm]
    rfl

/-- Concrete MCP client used by the `c9` witness: a connected server
`"fs"` exposing one tool `"read"`. -/
def fsClient : MCPClient :=
  { name := "fs",
    tools := [{ name := "read", description := "r", inputSchema := Json.obj [] }],
    isConnected := true,
    callTool := fun _ _ => .ok {} }

/-- Concrete manager owning only `fsClient`. -/
def fsManager : MCPManager := { clients := [("fs", fsClient)] }

/-- Witness for `c9_mcp_namespacing` at the concrete `fsManager`. -/
theorem c9_witness :
    (∃ td, (fsManager.registerToolsInto (fun _ => "") { tools := [] }).get "fs__read"
        = some td ∧ td.name = "fs__read") ∧
    fsManager.isMcpTool "fs__read" = true ∧
    fsManager.isMcpTool "read" = false :=
  c9_mcp_namespacing (fun _ => "") { tools := [] } fsClient "r" (Json.obj [])
    fsManager rfl rfl rfl

/- ──────────────────────────────────────────────────────────────────────
   JSON-RPC protocol helpers  (src/freecad_ai/mcp/protocol.py)
   ────────────────────────────────────────────────────────────────────── -/

/-- Standard JSON-RPC 2.0 error codes (protocol.py lines 11-15). -/
def PARSE_ERROR : Int := -32700
def INVALID_REQUEST : Int := -32600
def METHOD_NOT_FOUND : Int := -32601
def INVALID_PARAMS : Int := -32602
def INTERNAL_ERROR : Int := -32603

/-- `protocol.make_response` (protocol.py lines 38-40); a Python `None` id
serialises as JSON null. -/
def makeResponse (id : Option Json) (result : Json) : Json :=
  .obj [("jsonrpc", .str "2.0"), ("id", id.getD .null), ("result", result)]

/-- `protocol.make_error` (protocol.py lines 43-48), without the optional
`data` member (every call site passes none). -/
def makeError (id : Option Json) (code : Int) (message : String) : Json :=
  .obj [("jsonrpc", .str "2.0"), ("id", id.getD .null),
        ("error", .obj [("code", .num code), ("message", .str message)])]

/- ──────────────────────────────────────────────────────────────────────
   MCP server  (src/freecad_ai/mcp/server.py) and server transport
   dispatch  (src/freecad_ai/mcp/transport.py lines 155-186)
   ────────────────────────────────────────────────────────────────────── -/

/-- A decoded JSON-RPC message as read by the server: `msg.get("method",
"")`, `msg.get("id")`, `msg.get("params", Json.obj [])`. -/
structure RpcMessage where
  method : String := ""
  id : Option Json := none
  params : Json := .obj []

/-- `MCPServer.PROTOCOL_VERSION` / `SERVER_INFO` (server.py lines 15-16). -/
def SERVER_PROTOCOL_VERSION : String := "2025-03-26"
def SERVER_INFO : Json := .obj [("name", .str "FreeCAD AI"), ("version", .str "0.1.0")]

/-- `MCPServer._handle_tool_call` (server.py lines 66-86).  `pyRepr`
models Python `str(...)` applied to the structured `result.data` dict. -/
def handleToolCall (pyRepr : List (String × Json) → String) (reg : ToolRegistry)
    (msgId : Option Json) (params : Json) : Json :=
  let toolName := params.getStrD "name" ""
  let arguments := ((params.get "arguments").getD (.obj [])).asObj
  let result := reg.execute toolName arguments
  if result.success then
    let content :=
      [Json.obj [("type", .str "text"), ("text", .str result.output)]] ++
      (if result.data.isEmpty = false then
        [Json.obj [("type", .str "text"), ("text", .str (pyRepr result.data))]]
      else [])
    makeResponse msgId (.obj [("content", .arr content), ("isError", .bool false)])
  else
    makeResponse msgId (.obj
      [("content", .arr [Json.obj [("type", .str "text"),
        ("text", .str (if result.error = "" then "Unknown error" else result.error))]]),
       ("isError", .bool true)])

/-- `MCPServer._handle` (server.py lines 31-64), as a fallible function:
`Except.error e` models an uncaught Python exception with text `str(e)`.
The `tools/list` branch calls `self._registry.to_mcp_schema()`, but
`ToolRegistry` (registry.py) defines no such method — it only has
`to_openai_schema` and `to_anthropic_schema` — so that branch raises
`AttributeError("'ToolRegistry' object has no attribute 'to_mcp_schema'")`
for every registry state. -/
def MCPServer.handle (pyRepr : List (String × Json) → String) (reg : ToolRegistry)
    (msg : RpcMessage) : Except String (Option Json) :=
  if msg.method = "initialize" then
    .ok (some (makeResponse msg.id (.obj
      [("protocolVersion", .str SERVER_PROTOCOL_VERSION),
       ("capabilities", .obj [("tools", .obj [])]),
       ("serverInfo", SERVER_INFO)])))
  else if msg.method = "notifications/initialized" then
    .ok none
  else if msg.method = "tools/list" then
    .error "'ToolRegistry' object has no attribute 'to_mcp_schema'"
  else if msg.method = "tools/call" then
    .ok (some (handleToolCall pyRepr reg msg.id msg.params))
  else if msg.method = "ping" then
    .ok (some (makeResponse msg.id (.obj [])))
  else
    match msg.id with
    | some i => .ok (some (makeError (some i) METHOD_NOT_FOUND
        (s!"Method not found: {msg.method}")))
    | none => .ok none

/-- One handler dispatch of `StdioServerTransport.run` (transport.py lines
174-186): an exception from the handler on a message carrying an id
becomes an internal-error response with the exception's text; on a
notification it is swallowed. -/
def serverDispatch (handler : RpcMessage → Except String (Option Json))
    (msg : RpcMessage) : Option Json :=
  match handler msg with
  | .ok r => r
  | .error e =>
    match msg.id with
    | some i => some (makeError (some i) INTERNAL_ERROR e)
    | none => none

/-- C1 (code bug): a `tools/list` request never receives the registry's
schema dump — for every registry state and request id, the server's reply
is the JSON-RPC *internal error* response carrying the `AttributeError`
text for the missing `ToolRegistry.to_mcp_schema` method, not a success
response with a `tools` array. -/
theorem c1_tools_list_raises_internal_error
    (pyRepr : List (String × Json) → String) (reg : ToolRegistry)
    (i params : Json) :
    serverDispatch (MCPServer.handle pyRepr reg)
        { method := "tools/list", id := some i, params := params }
      = some (makeError (some i) INTERNAL_ERROR
          "'ToolRegistry' object has no attribute 'to_mcp_schema'") := by
  rfl

/- ──────────────────────────────────────────────────────────────────────
   Client transport pending-request bookkeeping
   (src/freecad_ai/mcp/transport.py lines 16-149)
   ────────────────────────────────────────────────────────────────────── -/

/-- One `self._pending[req_id]` entry (transport.py line 71):
`{"event": Event, "response": dict | None}`; the event object is modelled
by its set/unset state. -/
structure PendingEntry where
  response : Option Json := none
  eventSet : Bool := false

/-- The mutable state of `StdioClientTransport` that the pending-request
protocol touches: the pending map, the id counter and the running flag. -/
structure ClientTransportState where
  pending : List (Nat × PendingEntry) := []
  nextId : Nat := 1
  running : Bool := false

/-- `StdioClientTransport.stop` (transport.py lines 124-145), pending-map
part: each pending entry's `response` is set to the synthetic
`make_error(None, INTERNAL_ERROR, "Transport stopped")` and its event is
set — and then `self._pending.clear()` empties the map, all before the
lock is released. -/
def StdioClientTransport.stop (st : ClientTransportState) : ClientTransportState :=
  let resolved := st.pending.map (fun p =>
    (p.1, { response := some (makeError none INTERNAL_ERROR "Transport stopped"),
            eventSet := true }))
  { running := false, pending := resolved.filter (fun _ => false), nextId := st.nextId }

/-- The tail of `send_request` after its `event.wait` returns true
(transport.py lines 81-83): `entry = self._pending.pop(req_id)` — a plain
`dict.pop` with no default, which raises `KeyError(req_id)` when the id is
absent — then `return entry["response"]`.  The woken waiter runs this only
after `stop()` has released the lock. -/
def sendRequestResume (st : ClientTransportState) (reqId : Nat) :
    Except String (Option Json) :=
  match st.pending.lookup reqId with
  | none => .error (s!"KeyError: {reqId}")
  | some entry => .ok entry.response

/-- C2 (code bug): after `stop()`, a woken `send_request` caller never
receives the synthetic internal-error response — `stop` clears the whole
pending map after resolving the entries, so the caller's
`self._pending.pop(req_id)` raises `KeyError` instead of returning the
`-32603 "Transport stopped"` response, for every prior transport state and
request id. -/
theorem c2_stop_loses_synthetic_response (st : ClientTransportState) (reqId : Nat) :
    sendRequestResume (StdioClientTransport.stop st) reqId
      = .error (s!"KeyError: {reqId}") := by
  rw [sendRequestResume, StdioClientTransport.stop]
  simp [List.filter]

/- ──────────────────────────────────────────────────────────────────────
   LLM stream events  (src/freecad_ai/llm/client.py lines 23-45)
   ────────────────────────────────────────────────────────────────────── -/

/-- The `ToolCall` dataclass (client.py lines 23-28). -/
structure ToolCall where
  id : String
  name : String
  arguments : Json

/-- The `LLMStreamEvent` dataclass (client.py lines 39-45). -/
structure LLMStreamEvent where
  type : String
  text : String := ""
  tool_call : Option ToolCall := none
  argument_delta : String := ""

/- ──────────────────────────────────────────────────────────────────────
   Agent loop  (src/freecad_ai/ui/chat_widget.py, `_LLMWorker._tool_loop`
   lines 97-210)
   ────────────────────────────────────────────────────────────────────── -/

/-- The event-consumption loop of one streamed turn (chat_widget.py lines
106-120): collect text deltas and completed tool calls in order; stop at
the first `done` event (events after it are never pulled from the
generator). -/
def consumeEvents : List LLMStreamEvent → List String × List ToolCall
  | [] => ([], [])
  | e :: rest =>
    if e.type = "text_delta" then
      ((consumeEvents rest).1.cons e.text, (consumeEvents rest).2)
    else if e.type = "tool_call_end" then
      match e.tool_call with
      | some tc => ((consumeEvents rest).1, (consumeEvents rest).2.cons tc)
      | none => consumeEvents rest
    else if e.type = "done" then ([], [])
    else consumeEvents rest

/-- The dict returned by `_execute_tool_on_main_thread` as consumed by the
loop (chat_widget.py lines 170-172): `result.get("success", False)`,
`result.get("output", "")`, `result.get("error", "")`.  The timeout path
is one particular value of this shape. -/
structure ExecReply where
  success : Bool := false
  output : String := ""
  error : String := ""

/-- One `self._tool_results` entry (chat_widget.py lines 198-205). -/
structure ToolTurnRecord where
  assistantText : String
  toolCalls : List Json
  results : List (String × String)

/-- Observable outcome of `_tool_loop`: the final `_full_response`, the
`_tool_results` records, the local `messages` list, and the number of
`client.stream_with_tools` invocations performed (one per iteration of
`for turn in range(self._max_tool_turns)`). -/
structure ToolLoopResult where
  fullResponse : String
  toolResults : List ToolTurnRecord
  messages : List Json
  streamTurns : Nat

/-- The `_max_tool_turns` safety limit (chat_widget.py line 72). -/
def maxToolTurns : Nat := 10

/-- The notice appended on budget exhaustion (chat_widget.py line 208). -/
def budgetNotice : String := "\n\n[Reached maximum tool call iterations]"

/-- The body of `_LLMWorker._tool_loop` (chat_widget.py lines 97-210),
with the LLM client and the main-thread tool executor abstracted as
functions: `streamFn` maps the current message list to the turn's stream
events, `execFn` yields the executor's reply for one call.  `fuel` is
the number of loop iterations left out of `_max_tool_turns`. -/
def toolLoopGo (jsonDumps : Json → String)
    (streamFn : List Json → List LLMStreamEvent)
    (execFn : String → Json → ExecReply) (style : ApiStyle) :
    Nat → List Json → String → List ToolTurnRecord → Nat → ToolLoopResult
  | 0, messages, fullResponse, toolResults, streams =>
    { fullResponse := fullResponse ++ budgetNotice,
      toolResults := toolResults, messages := messages, streamTurns := streams }
  | fuel + 1, messages, fullResponse, toolResults, streams =>
    let pr := consumeEvents (streamFn messages)
    let turnText := String.join pr.1
    let fullResponse1 := fullResponse ++ turnText
    if pr.2.isEmpty then
      { fullResponse := fullResponse1, toolResults := toolResults,
        messages := messages, streamTurns := streams + 1 }
    else
      let tcDicts := pr.2.map (fun tc => Json.obj
        [("id", .str tc.id), ("name", .str tc.name), ("arguments", tc.arguments)])
      let assistantMsg := match style with
        | .anthropic => Json.obj [("role", .str "assistant"), ("content", .arr
            ((if turnText = "" then []
              else [Json.obj [("type", .str "text"), ("text", .str turnText)]]) ++
             pr.2.map (fun tc => Json.obj [("type", .str "tool_use"),
               ("id", .str tc.id), ("name", .str tc.name), ("input", tc.arguments)])))]
        | .openai => Json.obj [("role", .str "assistant"),
            ("content", if turnText = "" then .null else .str turnText),
            ("tool_calls", .arr (pr.2.map (fun tc => Json.obj
              [("id", .str tc.id), ("type", .str "function"),
               ("function", Json.obj [("name", .str tc.name),
                 ("arguments", .str (jsonDumps tc.arguments))])])))]
      let resultTexts := pr.2.map (fun tc =>
        let r := execFn tc.name tc.arguments
        if r.success then r.output else "Error: " ++ r.error)
      let toolResultMsgs := (pr.2.zip resultTexts).map (fun p => match style with
        | .anthropic => Json.obj [("role", .str "user"), ("content", .arr
            [Json.obj [("type", .str "tool_result"), ("tool_use_id", .str p.1.id),
              ("content", .str p.2)]])]
        | .openai => Json.obj [("role", .str "tool"),
            ("tool_call_id", .str p.1.id), ("content", .str p.2)])
      let record : ToolTurnRecord :=
        { assistantText := turnText, toolCalls := tcDicts,
          results := (pr.2.zip resultTexts).map (fun p => (p.1.id, p.2)) }
      toolLoopGo jsonDumps streamFn execFn style fuel
        ((messages ++ [assistantMsg]) ++ toolResultMsgs) fullResponse1
        (toolResults ++ [record]) (streams + 1)

/-- `_tool_loop` entry: fresh accumulators, `_max_tool_turns` iterations
available. -/
def toolLoop (jsonDumps : Json → String)
    (streamFn : List Json → List LLMStreamEvent)
    (execFn : String → Json → ExecReply) (style : ApiStyle)
    (messages : List Json) : ToolLoopResult :=
  toolLoopGo jsonDumps streamFn execFn style maxToolTurns messages "" [] 0

theorem toolLoopGo_budget (jsonDumps : Json → String)
    (streamFn : List Json → List LLMStreamEvent)
    (execFn : String → Json → ExecReply) (style : ApiStyle)
    (h : ∀ msgs, (consumeEvents (streamFn msgs)).2 ≠ []) :
    ∀ (fuel : Nat) (messages : List Json) (fullResponse : String)
      (toolResults : List ToolTurnRecord) (streams : Nat),
      (toolLoopGo jsonDumps streamFn execFn style fuel messages fullResponse
        toolResults streams).streamTurns = streams + fuel ∧
      (toolLoopGo jsonDumps streamFn execFn style fuel messages fullResponse
        toolResults streams).toolResults.length = toolResults.length + fuel ∧
      ∃ s, (toolLoopGo jsonDumps streamFn execFn style fuel messages fullResponse
        toolResults streams).fullResponse = s ++ budgetNotice := by
  intro fuel
  induction fuel with
  | zero =>
    intro messages fullResponse toolResults streams
    exact ⟨rfl, rfl, fullResponse, rfl⟩
  | succ fuel ih =>
    intro messages fullResponse toolResults streams
    rw [toolLoopGo.eq_def]
    simp only []
    rw [if_neg (by simpa [List.isEmpty_iff] using h messages)]
    obtain ⟨h1, h2, s, h3⟩ := ih _ _ _ _
    refine ⟨?_, ?_, s, h3⟩
    · rw [h1]; omega
    · rw [h2]; simp; omega

/-- C6: if the model returns at least one tool call on every streamed
turn, the agent loop performs exactly 10 stream invocations and exactly
10 tool-execution rounds, then terminates with the budget-exceeded notice
appended to the response text — it never starts an 11th streaming turn or
an 11th round of tool calls. -/
theorem c6_turn_budget (jsonDumps : Json → String)
    (streamFn : List Json → List LLMStreamEvent)
    (execFn : String → Json → ExecReply) (style : ApiStyle)
    (messages : List Json)
    (h : ∀ msgs, (consumeEvents (streamFn msgs)).2 ≠ []) :
    (toolLoop jsonDumps streamFn execFn style messages).streamTurns = 10 ∧
    (toolLoop jsonDumps streamFn execFn style messages).toolResults.length = 10 ∧
    ∃ s, (toolLoop jsonDumps streamFn execFn style messages).fullResponse
      = s ++ budgetNotice := by
  have := toolLoopGo_budget jsonDumps streamFn execFn style h
    maxToolTurns messages "" [] 0
  simpa [toolLoop, maxToolTurns] using this

/-- Witness for `c6_turn_budget`: a scripted model that answers every turn
with one tool call. -/
theorem c6_witness :
    (toolLoop (fun _ => "")
      (fun _ => [{ type := "tool_call_end",
                   tool_call := some { id := "1", name := "t", arguments := .obj [] } },
                 { type := "done" }])
      (fun _ _ => { success := true, output := "ok" }) .openai []).streamTurns = 10 ∧
    (toolLoop (fun _ => "")
      (fun _ => [{ type := "tool_call_end",
                   tool_call := some { id := "1", name := "t", arguments := .obj [] } },
                 { type := "done" }])
      (fun _ _ => { success := true, output := "ok" }) .openai []).toolResults.length = 10 ∧
    ∃ s, (toolLoop (fun _ => "")
      (fun _ => [{ type := "tool_call_end",
                   tool_call := some { id := "1", name := "t", arguments := .obj [] } },
                 { type := "done" }])
      (fun _ _ => { success := true, output := "ok" }) .openai []).fullResponse
      = s ++ budgetNotice :=
  c6_turn_budget (fun _ => "")
    (fun _ => [{ type := "tool_call_end",
                 tool_call := some { id := "1", name := "t", arguments := .obj [] } },
               { type := "done" }])
    (fun _ _ => { success := true, output := "ok" }) .openai []
    (fun _ => by simp [consumeEvents])

/- ──────────────────────────────────────────────────────────────────────
   Streaming tool-call reconstruction, OpenAI-style dialect
   (src/freecad_ai/llm/client.py, `_stream_openai_tools` lines 187-254)
   ────────────────────────────────────────────────────────────────────── -/

/-- The `function` member of one streamed tool-call delta:
`func.get("name")` (absent/`None`/`""` are all falsy — modelled by `""`)
and `func.get("arguments", "")`. -/
structure OaiFunctionDelta where
  name : String := ""
  arguments : String := ""

/-- One element of `delta.tool_calls`: `tc_delta.get("index", 0)`,
`tc_delta.get("id", "")` and the function fragment. -/
structure ToolCallDelta where
  index : Nat := 0
  id : String := ""
  function : OaiFunctionDelta := {}

/-- `choices[0].delta`: `delta.get("content")` (falsy modelled by `""`)
and `delta.get("tool_calls", [])`. -/
structure StreamDelta where
  content : String := ""
  tool_calls : List ToolCallDelta := []

/-- `choices[0]`: the delta and `choice.get("finish_reason")`. -/
structure StreamChoice where
  delta : StreamDelta := {}
  finish_reason : Option String := none

/-- One parsed SSE chunk as produced by `_http_stream`. -/
structure StreamChunk where
  choices : List StreamChoice := []

/-- One `pending_tools[idx]` entry (client.py lines 210-215). -/
structure PendingTool where
  id : String := ""
  name : String := ""
  arguments_json : String := ""

/-- Update of the id/name part of a pending entry by one delta (client.py
lines 210-227): a fresh entry starts from `tc_delta.get("id", "")`; a
truthy (non-empty) `id` overwrites; a truthy `function.name` overwrites
the name. -/
def ptStepNameId (cur : Option PendingTool) (tc : ToolCallDelta) : PendingTool :=
  let pt0 := match cur with
    | some pt => pt
    | none => { id := tc.id }
  let pt1 := if tc.id ≠ "" then { pt0 with id := tc.id } else pt0
  if tc.function.name ≠ "" then { pt1 with name := tc.function.name } else pt1

/-- Full update of a pending entry by one delta: id/name update followed
by string concatenation of a truthy argument fragment (client.py lines
229-231). -/
def ptStep (cur : Option PendingTool) (tc : ToolCallDelta) : PendingTool :=
  let pt2 := ptStepNameId cur tc
  if tc.function.arguments ≠ "" then
    { pt2 with arguments_json := pt2.arguments_json ++ tc.function.arguments }
  else pt2

/-- Processing of one `tc_delta` (client.py lines 208-232): update the
pending map (insertion-ordered dict keyed by stream index) and emit the
`tool_call_start` / `tool_call_delta` events the code yields. -/
def applyTcDelta (pending : List (Nat × PendingTool)) (tc : ToolCallDelta) :
    List (Nat × PendingTool) × List LLMStreamEvent :=
  let pt2 := ptStepNameId (pending.lookup tc.index) tc
  let pt3 := ptStep (pending.lookup tc.index) tc
  let evs : List LLMStreamEvent :=
    (if tc.function.name ≠ "" then
      [{ type := "tool_call_start",
         tool_call := some { id := pt2.id, name := pt2.name, arguments := .obj [] } }]
     else []) ++
    (if tc.function.arguments ≠ "" then
      [{ type := "tool_call_delta", argument_delta := tc.function.arguments }]
     else [])
  let pending' := if (pending.lookup tc.index).isSome then
      pending.map (fun p => if p.1 == tc.index then (tc.index, pt3) else p)
    else pending ++ [(tc.index, pt3)]
  (pending', evs)

/-- Sequential processing of a chunk's `tool_calls` list. -/
def applyTcDeltas : List (Nat × PendingTool) → List ToolCallDelta →
    List (Nat × PendingTool) × List LLMStreamEvent
  | pending, [] => (pending, [])
  | pending, tc :: ds =>
    let r := applyTcDelta pending tc
    let rest := applyTcDeltas r.1 ds
    (rest.1, r.2 ++ rest.2)

/-- Terminal signal carried by a chunk's `finish_reason` (client.py lines
235 and 247): `"tool_calls"`, `"stop"`, anything else continues. -/
inductive TermKind where
  | toolCalls
  | stop
deriving DecidableEq, Repr

def finishKind : Option String → Option TermKind
  | some "tool_calls" => some .toolCalls
  | some "stop" => some .stop
  | _ => none

/-- Processing of one chunk before the finish check (client.py lines
194-232): chunks without choices are skipped; otherwise the first
choice's text delta is emitted and its tool-call deltas are folded into
the pending map. -/
def processChunk (pending : List (Nat × PendingTool)) (ck : StreamChunk) :
    (List (Nat × PendingTool) × List LLMStreamEvent) × Option TermKind :=
  match ck.choices with
  | [] => ((pending, []), none)
  | choice :: _ =>
    let textEv : List LLMStreamEvent :=
      if choice.delta.content ≠ "" then
        [{ type := "text_delta", text := choice.delta.content }]
      else []
    let pr := applyTcDeltas pending choice.delta.tool_calls
    ((pr.1, textEv ++ pr.2), finishKind choice.finish_reason)

/-- Argument finalisation (client.py lines 237-240): empty accumulated
string → empty object; `json.loads` failure → empty object. -/
def parseArgs (jsonLoads : String → Option Json) (s : String) : Json :=
  if s = "" then .obj [] else (jsonLoads s).getD (.obj [])

/-- `sorted(pending_tools.items())` (client.py line 236): ascending by
stream index (the keys are distinct, so tuple order is key order). -/
def sortPending (l : List (Nat × PendingTool)) : List (Nat × PendingTool) :=
  List.insertionSort (fun p q => p.1 ≤ q.1) l

/-- The `tool_call_end` burst emitted on the `"tool_calls"` terminal
signal (client.py lines 236-244). -/
def finishEvents (jsonLoads : String → Option Json)
    (pending : List (Nat × PendingTool)) : List LLMStreamEvent :=
  (sortPending pending).map (fun p =>
    { type := "tool_call_end",
      tool_call := some { id := p.2.id, name := p.2.name,
                          arguments := parseArgs jsonLoads p.2.arguments_json } })

/-- The chunk loop of `_stream_openai_tools` (client.py lines 193-254):
on `finish_reason == "tool_calls"` emit the pending `tool_call_end`s in
ascending index order and `done`, on `"stop"` emit `done`, at stream end
emit `done`. -/
def streamOpenaiToolsGo (jsonLoads : String → Option Json) :
    List StreamChunk → List (Nat × PendingTool) → List LLMStreamEvent
  | [], _ => [{ type := "done" }]
  | ck :: rest, pending =>
    let pr := processChunk pending ck
    match pr.2 with
    | some .toolCalls => pr.1.2 ++ finishEvents jsonLoads pr.1.1 ++ [{ type := "done" }]
    | some .stop => pr.1.2 ++ [{ type := "done" }]
    | none => pr.1.2 ++ streamOpenaiToolsGo jsonLoads rest pr.1.1

/-- `_stream_openai_tools` on a scripted chunk sequence, starting from an
empty pending map. -/
def streamOpenaiTools (jsonLoads : String → Option Json)
    (chunks : List StreamChunk) : List LLMStreamEvent :=
  streamOpenaiToolsGo jsonLoads chunks []

/- Specification-side functions for claim C5: per-index data recomputed
directly from the scripted delta sequence, independently of the
operational pending map. -/

/-- Tool-call deltas carried by a chunk (empty for a chunk without
choices). -/
def chunkDeltas (ck : StreamChunk) : List ToolCallDelta :=
  match ck.choices with
  | [] => []
  | c :: _ => c.delta.tool_calls

/-- Terminal signal carried by a chunk. -/
def chunkTermKind (ck : StreamChunk) : Option TermKind :=
  match ck.choices with
  | [] => none
  | c :: _ => finishKind c.finish_reason

/-- All tool-call deltas processed before the stream returns: every chunk
up to and including the first one carrying a terminal signal (the
terminal chunk's own deltas are processed before its finish check). -/
def deltasBeforeTerm : List StreamChunk → List ToolCallDelta
  | [] => []
  | ck :: rest =>
    chunkDeltas ck ++ (if (chunkTermKind ck).isSome then [] else deltasBeforeTerm rest)

/-- The deltas addressed to one stream index. -/
def deltasFor (ds : List ToolCallDelta) (i : Nat) : List ToolCallDelta :=
  ds.filter (fun d => d.index == i)

/-- Concatenation of a list of strings. -/
def joinStrings : List String → String
  | [] => ""
  | s :: rest => s ++ joinStrings rest

/-- Concatenation of all argument fragments for one stream index. -/
def fragmentsConcat (ds : List ToolCallDelta) (i : Nat) : String :=
  joinStrings ((deltasFor ds i).map (fun d => d.function.arguments))

/-- Keep the later of two fragments when the later one is non-empty
(Python truthiness of the overwrite). -/
def updNonempty (acc s : String) : String := if s ≠ "" then s else acc

/-- Last non-empty string of a list (empty when there is none). -/
def lastNonempty (xs : List String) : String :=
  xs.foldl updNonempty ""

/-- The reconstructed call id for one stream index. -/
def specId (ds : List ToolCallDelta) (i : Nat) : String :=
  lastNonempty ((deltasFor ds i).map (fun d => d.id))

/-- The reconstructed tool name for one stream index. -/
def specName (ds : List ToolCallDelta) (i : Nat) : String :=
  lastNonempty ((deltasFor ds i).map (fun d => d.function.name))

/-- Ascending sort of a list of indices. -/
def sortNat (l : List Nat) : List Nat :=
  List.insertionSort (fun a b => a ≤ b) l

/-- The open stream indices, in ascending order. -/
def openIndicesSorted (ds : List ToolCallDelta) : List Nat :=
  sortNat ((ds.map (fun d => d.index)).dedup)

/- Generic association-list lemmas used by the C5 development. -/

theorem lookup_overwrite_self {α β : Type} [BEq α] [LawfulBEq α] (k : α) (v : β) :
    ∀ l : List (α × β),
      (l.map (fun p => if p.1 == k then (k, v) else p)).lookup k
        = if (l.lookup k).isSome then some v else none := by
  intro l
  induction l with
  | nil => rfl
  | cons p ps ih =>
    obtain ⟨a, b⟩ := p
    simp only [List.map_cons]
    by_cases ha : (a == k) = true
    · rw [if_pos ha]
      have hk : (k == a) = true := by
        rw [beq_iff_eq] at ha ⊢; exact ha.symm
      rw [List.lookup_cons_self, List.lookup_cons, hk]
      rfl
    · rw [if_neg (by simpa using ha)]
      have hka : (k == a) = false := by
        rw [beq_eq_false_iff_ne]
        intro hh
        rw [beq_iff_eq] at ha
        exact ha hh.symm
      rw [List.lookup_cons, List.lookup_cons, hka, ih]

theorem lookup_overwrite_ne {α β : Type} [BEq α] [LawfulBEq α] (k j : α) (v : β)
    (hjk : (j == k) = false) :
    ∀ l : List (α × β),
      (l.map (fun p => if p.1 == k then (k, v) else p)).lookup j = l.lookup j := by
  intro l
  induction l with
  | nil => rfl
  | cons p ps ih =>
    obtain ⟨a, c⟩ := p
    simp only [List.map_cons]
    by_cases ha : (a == k) = true
    · rw [if_pos ha]
      have hjk2 : (j == a) = false := by
        rw [beq_iff_eq] at ha
        rw [ha]
        exact hjk
      rw [List.lookup_cons, List.lookup_cons, hjk, hjk2, ih]
    · rw [if_neg (by simpa using ha)]
      rw [List.lookup_cons, List.lookup_cons, ih]

theorem lookup_append_some {α β : Type} [BEq α] (k : α) (v : β) :
    ∀ l₁ l₂ : List (α × β), l₁.lookup k = some v → (l₁ ++ l₂).lookup k = some v := by
  intro l₁
  induction l₁ with
  | nil => intro l₂ h; simp at h
  | cons p ps ih =>
    intro l₂ h
    obtain ⟨a, b⟩ := p
    rw [List.cons_append, List.lookup_cons]
    rw [List.lookup_cons] at h
    cases hk : (k == a) with
    | true => rw [hk] at h; exact h
    | false => rw [hk] at h; exact ih l₂ h

theorem lookup_append_none {α β : Type} [BEq α] (k : α) :
    ∀ l₁ l₂ : List (α × β), l₁.lookup k = none → (l₁ ++ l₂).lookup k = l₂.lookup k := by
  intro l₁
  induction l₁ with
  | nil => intro l₂ _; rfl
  | cons p ps ih =>
    intro l₂ h
    obtain ⟨a, b⟩ := p
    rw [List.cons_append, List.lookup_cons]
    rw [List.lookup_cons] at h
    cases hk : (k == a) with
    | true => rw [hk] at h; simp at h
    | false => rw [hk] at h; exact ih l₂ h

theorem lookup_isSome_iff_mem {α β : Type} [BEq α] [LawfulBEq α] (k : α) :
    ∀ l : List (α × β), (l.lookup k).isSome = true ↔ k ∈ l.map Prod.fst := by
  intro l
  induction l with
  | nil => simp
  | cons p ps ih =>
    obtain ⟨a, b⟩ := p
    rw [List.lookup_cons]
    cases hk : (k == a) with
    | true =>
      rw [beq_iff_eq] at hk
      simp [hk]
    | false =>
      have : k ≠ a := by
        rw [beq_eq_false_iff_ne] at hk; exact hk
      simp [this, ih]

theorem mem_lookup_of_nodup {α β : Type} [BEq α] [LawfulBEq α] :
    ∀ (l : List (α × β)), (l.map Prod.fst).Nodup →
      ∀ p ∈ l, l.lookup p.1 = some p.2 := by
  intro l
  induction l with
  | nil => intro _ p hp; simp at hp
  | cons q qs ih =>
    intro hnd p hp
    obtain ⟨a, b⟩ := q
    simp only [List.map_cons, List.nodup_cons] at hnd
    rcases List.mem_cons.mp hp with heq | hmem
    · subst heq
      exact List.lookup_cons_self
    · rw [List.lookup_cons]
      have hne : (p.1 == a) = false := by
        rw [beq_eq_false_iff_ne]
        intro hh
        exact hnd.1 (hh ▸ (List.mem_map.mpr ⟨p, hmem, rfl⟩))
      rw [hne]
      exact ih hnd.2 p hmem

theorem pairs_eq_map_keys {α β : Type} (f : α → β) :
    ∀ l : List (α × β), (∀ p ∈ l, p.2 = f p.1) →
      l = (l.map Prod.fst).map (fun k => (k, f k)) := by
  intro l
  induction l with
  | nil => intro _; rfl
  | cons p ps ih =>
    intro h
    obtain ⟨a, b⟩ := p
    simp only [List.map_cons]
    have hb : b = f a := h (a, b) (List.mem_cons_self _ _)
    rw [← hb, ← ih (fun q hq => h q (List.mem_cons_of_mem _ hq))]

/- State-correspondence for the pending map. -/

theorem applyTcDelta_lookup_self (pending : List (Nat × PendingTool))
    (tc : ToolCallDelta) :
    ((applyTcDelta pending tc).1).lookup tc.index
      = some (ptStep (pending.lookup tc.index) tc) := by
  rw [applyTcDelta]
  by_cases h : (pending.lookup tc.index).isSome = true
  · simp only [if_pos h]
    rw [lookup_overwrite_self, if_pos h]
  · simp only [if_neg h]
    have hnone : pending.lookup tc.index = none :=
      Option.not_isSome_iff_eq_none.mp (by simpa using h)
    rw [lookup_append_none _ _ _ hnone, List.lookup_cons_self]

theorem applyTcDelta_lookup_ne (pending : List (Nat × PendingTool))
    (tc : ToolCallDelta) (j : Nat) (hj : (j == tc.index) = false) :
    ((applyTcDelta pending tc).1).lookup j = pending.lookup j := by
  rw [applyTcDelta]
  by_cases h : (pending.lookup tc.index).isSome = true
  · simp only [if_pos h]
    rw [lookup_overwrite_ne _ _ _ hj]
  · simp only [if_neg h]
    cases hcur : pending.lookup j with
    | some w => rw [lookup_append_some _ _ _ _ hcur]
    | none =>
      rw [lookup_append_none _ _ _ hcur, List.lookup_cons, hj]
      rfl

/-- The per-index scalar evolution: the fold of `ptStep` over one index's
delta subsequence. -/
def scalarFold (cur : Option PendingTool) (ds : List ToolCallDelta) : Option PendingTool :=
  ds.foldl (fun c tc => some (ptStep c tc)) cur

theorem scalarFold_some_isSome : ∀ (ds : List ToolCallDelta) (pt : PendingTool),
    (scalarFold (some pt) ds).isSome = true := by
  intro ds
  induction ds with
  | nil => intro pt; rfl
  | cons tc ds ih => intro pt; exact ih (ptStep (some pt) tc)

/-- The pending map after a chunk's deltas is pointwise the scalar fold of
the index-filtered delta subsequence: reconstruction is per-index and
depends only on each index's own fragments. -/
theorem applyTcDeltas_lookup : ∀ (ds : List ToolCallDelta)
    (pending : List (Nat × PendingTool)) (j : Nat),
    ((applyTcDeltas pending ds).1).lookup j
      = scalarFold (pending.lookup j) (deltasFor ds j) := by
  intro ds
  induction ds with
  | nil => intro pending j; rfl
  | cons tc ds ih =>
    intro pending j
    have hstep : (applyTcDeltas pending (tc :: ds)).1
        = (applyTcDeltas (applyTcDelta pending tc).1 ds).1 := rfl
    rw [hstep, ih]
    by_cases hj : (j == tc.index) = true
    · have hj2 : j = tc.index := by rwa [beq_iff_eq] at hj
      subst hj2
      rw [applyTcDelta_lookup_self]
      conv_rhs => rw [deltasFor, List.filter_cons]
      rw [if_pos (by rw [beq_iff_eq] : (tc.index == tc.index) = true)]
      rfl
    · have hj2 : (j == tc.index) = false := by simpa using hj
      rw [applyTcDelta_lookup_ne _ _ _ hj2]
      conv_rhs => rw [deltasFor, List.filter_cons]
      rw [if_neg ?_]
      · rfl
      · intro hcon
        rw [beq_iff_eq] at hcon
        rw [beq_eq_false_iff_ne] at hj2
        exact hj2 hcon.symm

theorem keys_overwrite {α β : Type} [BEq α] [LawfulBEq α] (k : α) (v : β) :
    ∀ l : List (α × β),
      (l.map (fun p => if p.1 == k then (k, v) else p)).map Prod.fst
        = l.map Prod.fst := by
  intro l
  induction l with
  | nil => rfl
  | cons p ps ih =>
    obtain ⟨a, b⟩ := p
    simp only [List.map_cons]
    by_cases ha : (a == k) = true
    · rw [if_pos ha, ih]
      rw [beq_iff_eq] at ha
      rw [ha]
    · rw [if_neg (by simpa using ha), ih]

theorem applyTcDelta_keys (pending : List (Nat × PendingTool)) (tc : ToolCallDelta) :
    ((applyTcDelta pending tc).1).map Prod.fst
      = if (pending.lookup tc.index).isSome then pending.map Prod.fst
        else pending.map Prod.fst ++ [tc.index] := by
  rw [applyTcDelta]
  by_cases h : (pending.lookup tc.index).isSome = true
  · simp only [if_pos h]
    exact keys_overwrite _ _ _
  · simp only [if_neg h]
    simp

theorem applyTcDeltas_keys_nodup : ∀ (ds : List ToolCallDelta)
    (pending : List (Nat × PendingTool)),
    ((pending.map Prod.fst).Nodup) → (((applyTcDeltas pending ds).1).map Prod.fst).Nodup := by
  intro ds
  induction ds with
  | nil => intro pending h; exact h
  | cons tc ds ih =>
    intro pending h
    have hstep : (applyTcDeltas pending (tc :: ds)).1
        = (applyTcDeltas (applyTcDelta pending tc).1 ds).1 := rfl
    rw [hstep]
    apply ih
    rw [applyTcDelta_keys]
    by_cases hp : (pending.lookup tc.index).isSome = true
    · rwa [if_pos hp]
    · rw [if_neg hp]
      have hnotmem : tc.index ∉ pending.map Prod.fst := by
        intro hmem
        exact hp ((lookup_isSome_iff_mem _ _).mpr hmem)
      simp [List.nodup_append, h, hnotmem]

theorem applyTcDeltas_keys_mem : ∀ (ds : List ToolCallDelta)
    (pending : List (Nat × PendingTool)) (j : Nat),
    (j ∈ ((applyTcDeltas pending ds).1).map Prod.fst)
      ↔ (j ∈ pending.map Prod.fst ∨ j ∈ ds.map (fun d => d.index)) := by
  intro ds pending j
  rw [← lookup_isSome_iff_mem, ← lookup_isSome_iff_mem]
  rw [applyTcDeltas_lookup]
  constructor
  · intro h
    cases hfor : deltasFor ds j with
    | nil =>
      rw [scalarFold, hfor] at h
      exact Or.inl h
    | cons d dd =>
      refine Or.inr ?_
      have hd : d ∈ deltasFor ds j := by rw [hfor]; exact List.mem_cons_self _ _
      rw [deltasFor, List.mem_filter] at hd
      have : d.index = j := by rw [← beq_iff_eq]; exact hd.2
      exact this ▸ List.mem_map.mpr ⟨d, hd.1, rfl⟩
  · intro h
    rcases h with h | h
    · cases hfor : deltasFor ds j with
      | nil => simpa [scalarFold] using h
      | cons d dd => exact scalarFold_some_isSome dd _
    · obtain ⟨d, hd, hdj⟩ := List.mem_map.mp h
      have hdf : d ∈ deltasFor ds j := by
        rw [deltasFor, List.mem_filter]
        exact ⟨hd, by rw [beq_iff_eq]; exact hdj⟩
      cases hfor : deltasFor ds j with
      | nil => rw [hfor] at hdf; simp at hdf
      | cons e ee => exact scalarFold_some_isSome ee _

/- Per-index scalar characterisation: the reconstructed id/name are the
last non-empty fragments, the arguments string is the concatenation of
all fragments, independent of how they were fragmented. -/

theorem updNonempty_empty (s : String) : updNonempty "" s = s := by
  rw [updNonempty]
  by_cases h : s ≠ ""
  · rw [if_pos h]
  · rw [if_neg h]
    simp at h
    rw [h]

theorem ptStep_none (tc : ToolCallDelta) :
    ptStep none tc = { id := tc.id, name := tc.function.name,
                       arguments_json := tc.function.arguments } := by
  rw [ptStep, ptStepNameId]
  by_cases hid : tc.id ≠ "" <;> by_cases hnm : tc.function.name ≠ "" <;>
    by_cases harg : tc.function.arguments ≠ "" <;>
    simp_all

theorem ptStep_some (pt : PendingTool) (tc : ToolCallDelta) :
    ptStep (some pt) tc
      = { id := updNonempty pt.id tc.id,
          name := updNonempty pt.name tc.function.name,
          arguments_json := pt.arguments_json ++ tc.function.arguments } := by
  rw [ptStep, ptStepNameId, updNonempty, updNonempty]
  by_cases hid : tc.id ≠ "" <;> by_cases hnm : tc.function.name ≠ "" <;>
    by_cases harg : tc.function.arguments ≠ "" <;>
    simp_all

theorem scalarFold_some_eq : ∀ (ds : List ToolCallDelta) (pt : PendingTool),
    scalarFold (some pt) ds = some
      { id := (ds.map (fun d => d.id)).foldl updNonempty pt.id,
        name := (ds.map (fun d => d.function.name)).foldl updNonempty pt.name,
        arguments_json := pt.arguments_json ++
          joinStrings (ds.map (fun d => d.function.arguments)) } := by
  intro ds
  induction ds with
  | nil =>
    intro pt
    simp [scalarFold, joinStrings, String.append_empty]
  | cons d rest ih =>
    intro pt
    have hstep : scalarFold (some pt) (d :: rest)
        = scalarFold (some (ptStep (some pt) d)) rest := rfl
    rw [hstep, ih, ptStep_some]
    simp only [List.map_cons, List.foldl_cons, joinStrings]
    rw [String.append_assoc]

theorem scalarFold_none_eq (ds : List ToolCallDelta) (hne : ds ≠ []) :
    scalarFold none ds = some
      { id := lastNonempty (ds.map (fun d => d.id)),
        name := lastNonempty (ds.map (fun d => d.function.name)),
        arguments_json := joinStrings (ds.map (fun d => d.function.arguments)) } := by
  cases ds with
  | nil => exact absurd rfl hne
  | cons d rest =>
    have hstep : scalarFold none (d :: rest)
        = scalarFold (some (ptStep none d)) rest := rfl
    rw [hstep, ptStep_none, scalarFold_some_eq]
    simp only [lastNonempty, List.map_cons, List.foldl_cons, joinStrings]
    rw [updNonempty_empty, updNonempty_empty]

/- Sorting the pending map by stream index. -/

theorem map_fst_orderedInsert (p : Nat × PendingTool) :
    ∀ l : List (Nat × PendingTool),
      (List.orderedInsert (fun a b => a.1 ≤ b.1) p l).map Prod.fst
        = List.orderedInsert (fun a b => a ≤ b) p.1 (l.map Prod.fst) := by
  intro l
  induction l with
  | nil => rfl
  | cons q l ih =>
    rw [List.orderedInsert, List.map_cons, List.orderedInsert]
    by_cases h : p.1 ≤ q.1
    · rw [if_pos h, if_pos h]
      rfl
    · rw [if_neg h, if_neg h, List.map_cons, ih]

theorem map_fst_sortPending : ∀ l : List (Nat × PendingTool),
    (sortPending l).map Prod.fst = sortNat (l.map Prod.fst) := by
  intro l
  induction l with
  | nil => rfl
  | cons p l ih =>
    rw [sortPending, sortNat, List.map_cons, List.insertionSort, List.insertionSort,
      map_fst_orderedInsert]
    rw [sortPending, sortNat] at ih
    rw [ih]

theorem sortNat_eq_of_perm (l₁ l₂ : List Nat) (h : l₁.Perm l₂) :
    sortNat l₁ = sortNat l₂ :=
  @List.eq_of_perm_of_sorted Nat (fun a b => a ≤ b)
    ⟨fun _ _ h1 h2 => Nat.le_antisymm h1 h2⟩ _ _
    (((List.perm_insertionSort _ l₁).trans h).trans (List.perm_insertionSort _ l₂).symm)
    (List.sorted_insertionSort _ l₁)
    (List.sorted_insertionSort _ l₂)

/-- A key-determined pending map sorts to the map over its sorted key
list. -/
theorem sortPending_eq (l : List (Nat × PendingTool)) (f : Nat → PendingTool)
    (hf : ∀ p ∈ l, p.2 = f p.1) :
    sortPending l = (sortNat (l.map Prod.fst)).map (fun k => (k, f k)) := by
  have hperm : (sortPending l).Perm l := List.perm_insertionSort _ l
  have hf2 : ∀ p ∈ sortPending l, p.2 = f p.1 := by
    intro p hp
    exact hf p (hperm.mem_iff.mp hp)
  calc sortPending l
      = ((sortPending l).map Prod.fst).map (fun k => (k, f k)) :=
        pairs_eq_map_keys f _ hf2
    _ = (sortNat (l.map Prod.fst)).map (fun k => (k, f k)) := by
        rw [map_fst_sortPending]

/-- The `tool_call_end` burst computed by the code equals, for every
scripted delta sequence, the specification-side per-index reconstruction:
one event per open index, ascending by index, with `arguments` parsed
from the concatenation of that index's fragments. -/
theorem finishEvents_eq (jsonLoads : String → Option Json) (ds : List ToolCallDelta) :
    finishEvents jsonLoads (applyTcDeltas [] ds).1
      = (openIndicesSorted ds).map (fun i =>
          { type := "tool_call_end",
            tool_call := some { id := specId ds i, name := specName ds i,
                                arguments := parseArgs jsonLoads (fragmentsConcat ds i) } }) := by
  have hnd : (((applyTcDeltas [] ds).1).map Prod.fst).Nodup :=
    applyTcDeltas_keys_nodup ds [] (by simp)
  have hf : ∀ p ∈ (applyTcDeltas [] ds).1,
      p.2 = { id := specId ds p.1, name := specName ds p.1,
              arguments_json := fragmentsConcat ds p.1 : PendingTool } := by
    intro p hp
    have hl0 := mem_lookup_of_nodup _ hnd p hp
    rw [applyTcDeltas_lookup] at hl0
    have hl : scalarFold none (deltasFor ds p.1) = some p.2 := hl0
    cases hfor : deltasFor ds p.1 with
    | nil =>
      rw [hfor] at hl
      exact absurd hl (by simp [scalarFold])
    | cons d dd =>
      rw [scalarFold_none_eq (deltasFor ds p.1) (by rw [hfor]; simp)] at hl
      have := Option.some.inj hl
      rw [← this]
      rfl
  have hsp := sortPending_eq ((applyTcDeltas [] ds).1)
    (fun i => PendingTool.mk (specId ds i) (specName ds i) (fragmentsConcat ds i)) hf
  rw [finishEvents, hsp]
  have hkeys : sortNat (((applyTcDeltas [] ds).1).map Prod.fst)
      = openIndicesSorted ds := by
    rw [openIndicesSorted]
    apply sortNat_eq_of_perm
    rw [List.perm_ext_iff_of_nodup hnd (List.nodup_dedup _)]
    intro a
    rw [List.mem_dedup, applyTcDeltas_keys_mem]
    simp
  rw [hkeys, List.map_map]
  rfl

/- Event-shape analysis of the chunk loop. -/

/-- Test for `tool_call_end` / `done` events. -/
def isEndOrDone (e : LLMStreamEvent) : Bool :=
  e.type == "tool_call_end" || e.type == "done"

theorem applyTcDelta_events_no_end (pending : List (Nat × PendingTool))
    (tc : ToolCallDelta) :
    ∀ e ∈ (applyTcDelta pending tc).2, isEndOrDone e = false := by
  intro e he
  rw [applyTcDelta] at he
  simp only [List.mem_append] at he
  rcases he with he | he
  · by_cases h : tc.function.name ≠ ""
    · rw [if_pos h] at he
      simp only [List.mem_singleton] at he
      subst he
      rfl
    · rw [if_neg h] at he
      simp at he
  · by_cases h : tc.function.arguments ≠ ""
    · rw [if_pos h] at he
      simp only [List.mem_singleton] at he
      subst he
      rfl
    · rw [if_neg h] at he
      simp at he

theorem applyTcDeltas_events_no_end : ∀ (ds : List ToolCallDelta)
    (pending : List (Nat × PendingTool)),
    ∀ e ∈ (applyTcDeltas pending ds).2, isEndOrDone e = false := by
  intro ds
  induction ds with
  | nil => intro pending e he; simp [applyTcDeltas] at he
  | cons tc ds ih =>
    intro pending e he
    have hsp : (applyTcDeltas pending (tc :: ds)).2
        = (applyTcDelta pending tc).2 ++ (applyTcDeltas (applyTcDelta pending tc).1 ds).2 := rfl
    rw [hsp, List.mem_append] at he
    rcases he with he | he
    · exact applyTcDelta_events_no_end pending tc e he
    · exact ih _ e he

theorem processChunk_events_no_end (pending : List (Nat × PendingTool))
    (ck : StreamChunk) :
    ∀ e ∈ (processChunk pending ck).1.2, isEndOrDone e = false := by
  intro e he
  rw [processChunk] at he
  cases hc : ck.choices with
  | nil => rw [hc] at he; simp at he
  | cons choice ccs =>
    rw [hc] at he
    simp only [List.mem_append] at he
    rcases he with he | he
    · by_cases h : choice.delta.content ≠ ""
      · rw [if_pos h] at he
        simp only [List.mem_singleton] at he
        subst he
        rfl
      · rw [if_neg h] at he
        simp at he
    · exact applyTcDeltas_events_no_end _ pending e he

theorem processChunk_term (pending : List (Nat × PendingTool)) (ck : StreamChunk) :
    (processChunk pending ck).2 = chunkTermKind ck := by
  rw [processChunk, chunkTermKind]
  cases ck.choices with
  | nil => rfl
  | cons choice ccs => rfl

theorem processChunk_pending (pending : List (Nat × PendingTool)) (ck : StreamChunk) :
    (processChunk pending ck).1.1 = (applyTcDeltas pending (chunkDeltas ck)).1 := by
  rw [processChunk, chunkDeltas]
  cases ck.choices with
  | nil => rfl
  | cons choice ccs => rfl

theorem applyTcDeltas_append_fst : ∀ (ds₁ ds₂ : List ToolCallDelta)
    (pending : List (Nat × PendingTool)),
    (applyTcDeltas pending (ds₁ ++ ds₂)).1
      = (applyTcDeltas (applyTcDeltas pending ds₁).1 ds₂).1 := by
  intro ds₁
  induction ds₁ with
  | nil => intro ds₂ pending; rfl
  | cons tc ds₁ ih =>
    intro ds₂ pending
    have h1 : (applyTcDeltas pending ((tc :: ds₁) ++ ds₂)).1
        = (applyTcDeltas (applyTcDelta pending tc).1 (ds₁ ++ ds₂)).1 := rfl
    have h2 : (applyTcDeltas pending (tc :: ds₁)).1
        = (applyTcDeltas (applyTcDelta pending tc).1 ds₁).1 := rfl
    rw [h1, h2, ih]

/-- All deltas of a chunk prefix. -/
def deltasOf (cs : List StreamChunk) : List ToolCallDelta :=
  (cs.map chunkDeltas).flatten

theorem deltasBeforeTerm_eq : ∀ (cs₁ : List StreamChunk) (ckT : StreamChunk)
    (rest : List StreamChunk),
    (∀ ck ∈ cs₁, chunkTermKind ck = none) →
    chunkTermKind ckT = some .toolCalls →
    deltasBeforeTerm (cs₁ ++ ckT :: rest) = deltasOf cs₁ ++ chunkDeltas ckT := by
  intro cs₁
  induction cs₁ with
  | nil =>
    intro ckT rest _ h2
    rw [List.nil_append, deltasBeforeTerm, h2]
    simp [deltasOf]
  | cons ck cs₁ ih =>
    intro ckT rest h1 h2
    rw [List.cons_append, deltasBeforeTerm,
      h1 ck (List.mem_cons_self _ _)]
    rw [ih ckT rest (fun c hc => h1 c (List.mem_cons_of_mem _ hc)) h2]
    simp [deltasOf, List.append_assoc]

/-- Shape of the event stream when the first terminal chunk carries
`finish_reason == "tool_calls"`: some end-free prefix of events, then the
`tool_call_end` burst computed from the pending map accumulated over all
deltas up to (and including) the terminal chunk, then `done`. -/
theorem streamGo_shape (jsonLoads : String → Option Json) :
    ∀ (cs₁ : List StreamChunk) (ckT : StreamChunk) (rest : List StreamChunk)
      (pending : List (Nat × PendingTool)),
      (∀ ck ∈ cs₁, chunkTermKind ck = none) →
      chunkTermKind ckT = some .toolCalls →
      ∃ preEvs, streamOpenaiToolsGo jsonLoads (cs₁ ++ ckT :: rest) pending
          = preEvs ++ finishEvents jsonLoads
              (applyTcDeltas pending (deltasOf cs₁ ++ chunkDeltas ckT)).1
            ++ [{ type := "done" }]
        ∧ ∀ e ∈ preEvs, isEndOrDone e = false := by
  intro cs₁
  induction cs₁ with
  | nil =>
    intro ckT rest pending _ h2
    rw [List.nil_append, streamOpenaiToolsGo]
    rw [show (processChunk pending ckT).2 = some .toolCalls from
      (processChunk_term pending ckT).trans h2]
    refine ⟨(processChunk pending ckT).1.2, ?_, processChunk_events_no_end pending ckT⟩
    rw [processChunk_pending]
    rw [show deltasOf [] ++ chunkDeltas ckT = chunkDeltas ckT from by simp [deltasOf]]
  | cons ck cs₁ ih =>
    intro ckT rest pending h1 h2
    rw [List.cons_append, streamOpenaiToolsGo]
    rw [show (processChunk pending ck).2 = none from
      (processChunk_term pending ck).trans (h1 ck (List.mem_cons_self _ _))]
    obtain ⟨preEvs, heq, hno⟩ :=
      ih ckT rest (processChunk pending ck).1.1
        (fun c hc => h1 c (List.mem_cons_of_mem _ hc)) h2
    refine ⟨(processChunk pending ck).1.2 ++ preEvs, ?_, ?_⟩
    · rw [heq, processChunk_pending]
      rw [show (applyTcDeltas (applyTcDeltas pending (chunkDeltas ck)).1
            (deltasOf cs₁ ++ chunkDeltas ckT)).1
          = (applyTcDeltas pending (chunkDeltas ck ++ (deltasOf cs₁ ++ chunkDeltas ckT))).1 from
        (applyTcDeltas_append_fst _ _ _).symm]
      rw [show chunkDeltas ck ++ (deltasOf cs₁ ++ chunkDeltas ckT)
          = deltasOf (ck :: cs₁) ++ chunkDeltas ckT from by
        simp [deltasOf, List.append_assoc]]
      simp [List.append_assoc]
    · intro e he
      rcases List.mem_append.mp he with he | he
      · exact processChunk_events_no_end pending ck e he
      · exact hno e he

/-- C5: streaming tool-call reconstruction for the OpenAI-style dialect.
For every scripted chunk sequence whose first terminal chunk carries
`finish_reason == "tool_calls"`, the emitted event stream consists of an
end-free prefix, then exactly one `tool_call_end` per open stream index in
ascending index order — each carrying as `arguments` the JSON value
obtained by parsing the concatenation of all argument fragments delivered
for that index (empty concatenation and parse failure both yielding the
empty object) — and then the `done` event.  The result depends only on
each index's fragment concatenation, hence is invariant under
re-fragmentation of the argument strings. -/
theorem c5_stream_reconstruction (jsonLoads : String → Option Json)
    (cs₁ : List StreamChunk) (ckT : StreamChunk) (rest : List StreamChunk)
    (h1 : ∀ ck ∈ cs₁, chunkTermKind ck = none)
    (h2 : chunkTermKind ckT = some .toolCalls) :
    ∃ preEvs,
      streamOpenaiTools jsonLoads (cs₁ ++ ckT :: rest)
        = preEvs
          ++ (openIndicesSorted (deltasBeforeTerm (cs₁ ++ ckT :: rest))).map (fun i =>
              { type := "tool_call_end",
                tool_call := some
                  { id := specId (deltasBeforeTerm (cs₁ ++ ckT :: rest)) i,
                    name := specName (deltasBeforeTerm (cs₁ ++ ckT :: rest)) i,
                    arguments := parseArgs jsonLoads
                      (fragmentsConcat (deltasBeforeTerm (cs₁ ++ ckT :: rest)) i) } })
          ++ [{ type := "done" }]
      ∧ ∀ e ∈ preEvs, isEndOrDone e = false := by
  obtain ⟨preEvs, heq, hno⟩ := streamGo_shape jsonLoads cs₁ ckT rest [] h1 h2
  refine ⟨preEvs, ?_, hno⟩
  rw [streamOpenaiTools, heq, finishEvents_eq,
    deltasBeforeTerm_eq cs₁ ckT rest h1 h2]

/-- First scripted chunk of the `c5` witness: opens index 0 with id
`"call1"`, name `"t"` and argument fragment `"ab"`. -/
def c5Chunk1 : StreamChunk :=
  StreamChunk.mk
    [StreamChoice.mk (StreamDelta.mk ""
      [ToolCallDelta.mk 0 "call1" (OaiFunctionDelta.mk "t" "ab")]) none]

/-- Second scripted chunk of the `c5` witness: a further fragment `"cd"`
for index 0 and the `"tool_calls"` terminal signal. -/
def c5Chunk2 : StreamChunk :=
  StreamChunk.mk
    [StreamChoice.mk (StreamDelta.mk ""
      [ToolCallDelta.mk 0 "" (OaiFunctionDelta.mk "" "cd")]) (some "tool_calls")]

/-- Witness for `c5_stream_reconstruction`: the fragments `"ab"` and
`"cd"` delivered in two chunks are reconstructed from their concatenation
`"abcd"`. -/
theorem c5_witness :
    ∃ preEvs,
      streamOpenaiTools (fun _ => none) ([c5Chunk1] ++ c5Chunk2 :: [])
        = preEvs
          ++ (openIndicesSorted (deltasBeforeTerm ([c5Chunk1] ++ c5Chunk2 :: []))).map (fun i =>
              { type := "tool_call_end",
                tool_call := some
                  { id := specId (deltasBeforeTerm ([c5Chunk1] ++ c5Chunk2 :: [])) i,
                    name := specName (deltasBeforeTerm ([c5Chunk1] ++ c5Chunk2 :: [])) i,
                    arguments := parseArgs (fun _ => none)
                      (fragmentsConcat (deltasBeforeTerm ([c5Chunk1] ++ c5Chunk2 :: [])) i) } })
          ++ [{ type := "done" }]
      ∧ ∀ e ∈ preEvs, isEndOrDone e = false :=
  c5_stream_reconstruction (fun _ => none) [c5Chunk1] c5Chunk2 []
    (fun ck hck => by
      rw [List.mem_singleton] at hck
      subst hck
      rfl)
    rfl
